import Mathlib

/-!
Target abstraction layer of `src/target.c`.

A shallow embedding of the target registry (`target_new`, `target_foreach`,
`target_attach`, `target_attach_n`), the memory map (`target_add_ram`,
`target_add_flash`, `map_ram`, `map_flash`, `target_mem_map`), the flash engine
(`flash_for_addr`, `target_flash_erase`, `target_flash_write`,
`target_flash_done`, `target_flash_write_buffered`,
`target_flash_done_buffered`) and the command dispatch (`target_add_commands`,
`target_command`), together with theorems about them.

Conventions of the embedding

* `uint32_t` values are natural numbers; every place where the C code can wrap
  around is written with an explicit `% 2 ^ 32`.
* `int` status codes are integers, `ret |= x` is `Int.lor`.
* bytes are natural numbers, byte buffers are lists.
* a C string is the list of its characters before the terminating NUL; a
  character buffer is represented by the C string it holds.
* a linked list is a list, head first.
* a driver capability (a function pointer of `struct target_flash`) is a
  function on an abstract driver state `σ` that yields a status and the next
  state; it does not change the region records themselves.  The same holds for
  the attach capability, the destroy callbacks and the command handlers.
* a run of a C function either returns or hits undefined behaviour; the latter
  is the `error` side of `Except fault`.
* every loop over a length is driven by a fuel counter that starts at the loop
  length; the fuel is shown never to run out.  Loops over a linked list follow
  the list.
* the functions return, next to the C result, the list of capability calls they
  made (in call order).
-/

namespace BMP

/-- Ways in which a run of the C code can fail to return. -/
inductive fault where
  | null_deref
  | div_by_zero
  | out_of_fuel
  | out_of_bounds
  deriving DecidableEq, Repr

deriving instance DecidableEq for Except

/-- Value of `(uint32_t)-1`, the "no sector buffered" mark of `buf_addr`. -/
def NO_SECTOR : Nat := 2 ^ 32 - 1

/-- Modelled from the spec: the `MIN` macro of `general.h`, which is not part of
the sources at hand; the smaller of two lengths (`min` in §4.3). -/
def MIN (x y : Nat) : Nat := if x < y then x else y

/-- Modelled from the spec: the `ALIGN` macro of `general.h`, which is not part
of the sources at hand; §4.3 calls it `round_up(x, n)`, the least multiple of
`n` that is at least `x`. -/
def ALIGN (x n : Nat) : Nat := (x + n - 1) / n * n

/-- The C library call `memset(p, v, n)` on a buffer of exactly `n` bytes. -/
def memset (n v : Nat) : List Nat := List.replicate n v

/-- The C library call `memcpy(dst + off, src, n)`, as the new content of `dst`. -/
def memcpy (dst : List Nat) (off : Nat) (src : List Nat) (n : Nat) : List Nat :=
  dst.take off ++ src.take n ++ dst.drop (off + n)

/-- The record `struct target_flash`.  `erase`, `write`, `write_buf` and `done`
are the driver capabilities; the first argument `f` of the C function pointers
is the record itself and is left out.  A write capability receives the bytes
`data[0 .. len)` as a list. -/
structure target_flash (σ : Type) where
  start : Nat
  length : Nat
  blocksize : Nat := 0
  erase : Nat → Nat → σ → Int × σ
  write : Nat → List Nat → σ → Int × σ
  done : Option (σ → Int × σ) := none
  align : Nat := 0
  erased : Nat := 255
  buf_size : Nat := 0
  write_buf : Nat → List Nat → σ → Int × σ := fun _ _ s => (0, s)
  buf_addr : Nat := 0
  buf : Option (List Nat) := none

/-- The record `struct target_ram`. -/
structure target_ram where
  start : Nat
  length : Nat
  deriving DecidableEq, Repr

/-- The record `struct command_s`: command text, handler and help text.  A C
string is the list of its characters before the terminating NUL.  The handler
receives `argv`; its first argument `t` is left out. -/
structure command_s (σ : Type) where
  cmd : List Char
  handler : List (List Char) → σ → Bool × σ
  help : List Char := []

/-- The record `struct target_command_s`: one registered command table, the
entries of `cmds` before the terminating entry with `cmd == NULL`. -/
structure target_command_s (σ : Type) where
  specific_name : List Char
  cmds : List (command_s σ)

/-- A value of `target_destroy_callback`: a function pointer, told apart from
others by `tag`, and what calling it does to the state of its owner. -/
structure target_destroy_callback (σ : Type) where
  tag : Nat
  run : σ → σ

/-- The part of `struct target_s` used by the registry, the memory map, the
flash engine and the command dispatch; the linked lists `ram`, `flash` and
`commands` are given head first, a function pointer that may be `NULL` is an
`Option`. -/
structure target (σ : Type) where
  driver : List Char := []
  attach : Option (σ → Bool × σ) := none
  attached : Bool := false
  destroy_callback : Option (target_destroy_callback σ) := none
  ram : List target_ram := []
  flash : List (target_flash σ) := []
  commands : List (target_command_s σ) := []
  dyn_mem_map : Option (List Char) := none

/-- One call of a capability of region `f`: the address and length passed, the
bytes passed (none for an erase), and the status the driver returned. -/
structure flash_call (σ : Type) where
  f : target_flash σ
  addr : Nat
  len : Nat
  data : List Nat
  status : Int

/-- What a flash operation leaves behind: the C return value, the driver state,
and the capability calls made, in order. -/
structure flash_result (σ : Type) where
  ret : Int
  st : σ
  calls : List (flash_call σ)

/-- The loop test of `flash_for_addr`. -/
def flash_claims {σ : Type} (addr : Nat) (f : target_flash σ) : Bool :=
  decide (f.start ≤ addr) && decide (addr < (f.start + f.length) % 2 ^ 32)

/-- The function `flash_for_addr`: first region of the list that claims `addr`,
`none` for the `NULL` result. -/
def flash_for_addr {σ : Type} (t : target σ) (addr : Nat) : Option (target_flash σ) :=
  t.flash.find? (flash_claims addr)

/-- The `while (len)` loop of `target_flash_erase`; `ret` and `calls` are the
values accumulated so far. -/
def target_flash_erase_loop {σ : Type} (t : target σ) :
    Nat → σ → Nat → Nat → Int → List (flash_call σ) → Except fault (flash_result σ)
  | fuel, s, addr, len, ret, calls =>
    if len = 0 then .ok { ret := ret, st := s, calls := calls }
    else
      match fuel with
      | 0 => .error .out_of_fuel
      | fuel + 1 =>
        match flash_for_addr t addr with
        | none => .error .null_deref
        | some f =>
          if f.length = 0 then .error .div_by_zero
          else
            let tmplen := MIN len (f.length - addr % f.length)
            let r := f.erase addr tmplen s
            target_flash_erase_loop t fuel r.2 ((addr + tmplen) % 2 ^ 32) (len - tmplen)
              (Int.lor ret r.1)
              (calls ++ [{ f := f, addr := addr, len := tmplen, data := [], status := r.1 }])

/-- The function `target_flash_erase`. -/
def target_flash_erase {σ : Type} (t : target σ) (s : σ) (addr len : Nat) :
    Except fault (flash_result σ) :=
  target_flash_erase_loop t len s addr len 0 []

/-- The `while (len)` loop of `target_flash_write`.  Note that the C loop
advances `src` and `len` but not `dest`. -/
def target_flash_write_loop {σ : Type} (t : target σ) (dest : Nat) :
    Nat → σ → List Nat → Nat → Int → List (flash_call σ) → Except fault (flash_result σ)
  | fuel, s, src, len, ret, calls =>
    if len = 0 then .ok { ret := ret, st := s, calls := calls }
    else
      match fuel with
      | 0 => .error .out_of_fuel
      | fuel + 1 =>
        match flash_for_addr t dest with
        | none => .error .null_deref
        | some f =>
          if f.length = 0 then .error .div_by_zero
          else
            let tmplen := MIN len (f.length - dest % f.length)
            if 1 < f.align then
              let offset := dest % f.align
              let size := ALIGN (offset + len) f.align
              let data := memcpy (memset size f.erased) offset src len
              let r := f.write (dest - offset) data s
              target_flash_write_loop t dest fuel r.2 (src.drop tmplen) (len - tmplen)
                (Int.lor ret r.1)
                (calls ++ [{ f := f, addr := dest - offset, len := size, data := data,
                             status := r.1 }])
            else
              let r := f.write dest (src.take tmplen) s
              target_flash_write_loop t dest fuel r.2 (src.drop tmplen) (len - tmplen)
                (Int.lor ret r.1)
                (calls ++ [{ f := f, addr := dest, len := tmplen, data := src.take tmplen,
                             status := r.1 }])

/-- The function `target_flash_write`. -/
def target_flash_write {σ : Type} (t : target σ) (s : σ) (dest : Nat) (src : List Nat)
    (len : Nat) : Except fault (flash_result σ) :=
  target_flash_write_loop t dest len s src len 0 []

/-- What a buffered operation leaves behind: the C return value, the region
record (with its `buf` and `buf_addr`), the driver state and the `write_buf`
calls made, in order. -/
structure buffered_result (σ : Type) where
  ret : Int
  f : target_flash σ
  st : σ
  calls : List (flash_call σ)

/-- The `while (len)` loop of `target_flash_write_buffered`. -/
def target_flash_write_buffered_loop {σ : Type} :
    Nat → target_flash σ → σ → Nat → List Nat → Nat → Int → List (flash_call σ) →
      Except fault (buffered_result σ)
  | fuel, f, s, dest, src, len, ret, calls =>
    if len = 0 then .ok { ret := ret, f := f, st := s, calls := calls }
    else
      match fuel with
      | 0 => .error .out_of_fuel
      | fuel + 1 =>
        if f.buf_size = 0 then .error .div_by_zero
        else
          match f.buf with
          | none => .error .null_deref
          | some b =>
            let offset := dest % f.buf_size
            let base := dest - offset
            let sectlen := MIN (f.buf_size - offset) len
            if base ≠ f.buf_addr then
              if f.buf_addr ≠ NO_SECTOR then
                let r := f.write_buf f.buf_addr b s
                target_flash_write_buffered_loop fuel
                  { f with buf_addr := base,
                           buf := some (memcpy (memset f.buf_size f.erased) offset src sectlen) }
                  r.2 ((dest + sectlen) % 2 ^ 32) (src.drop sectlen) (len - sectlen)
                  (Int.lor ret r.1)
                  (calls ++ [{ f := f, addr := f.buf_addr, len := f.buf_size, data := b,
                               status := r.1 }])
              else
                target_flash_write_buffered_loop fuel
                  { f with buf_addr := base,
                           buf := some (memcpy (memset f.buf_size f.erased) offset src sectlen) }
                  s ((dest + sectlen) % 2 ^ 32) (src.drop sectlen) (len - sectlen) ret calls
            else
              target_flash_write_buffered_loop fuel
                { f with buf := some (memcpy b offset src sectlen) }
                s ((dest + sectlen) % 2 ^ 32) (src.drop sectlen) (len - sectlen) ret calls

/-- The C library call `malloc(n)`: a buffer of `n` bytes whose content is
indeterminate; `junk i` stands for the byte found at index `i`. -/
def malloc (junk : Nat → Nat) (n : Nat) : List Nat := (List.range n).map junk

/-- The function `target_flash_write_buffered`; `junk` is the indeterminate
content of a newly allocated buffer. -/
def target_flash_write_buffered {σ : Type} (junk : Nat → Nat) (f : target_flash σ)
    (s : σ) (dest : Nat) (src : List Nat) (len : Nat) : Except fault (buffered_result σ) :=
  match f.buf with
  | none =>
    target_flash_write_buffered_loop len
      { f with buf := some (malloc junk f.buf_size), buf_addr := NO_SECTOR } s dest src len 0 []
  | some _ => target_flash_write_buffered_loop len f s dest src len 0 []

/-- The function `target_flash_done_buffered`. -/
def target_flash_done_buffered {σ : Type} (f : target_flash σ) (s : σ) : buffered_result σ :=
  match f.buf with
  | some b =>
    if f.buf_addr ≠ NO_SECTOR then
      let r := f.write_buf f.buf_addr b s
      { ret := r.1, f := { f with buf_addr := NO_SECTOR, buf := none }, st := r.2,
        calls := [{ f := f, addr := f.buf_addr, len := f.buf_size, data := b, status := r.1 }] }
    else { ret := 0, f := f, st := s, calls := [] }
  | none => { ret := 0, f := f, st := s, calls := [] }

/-- Every byte of the request `[addr, addr + len)` is claimed by a region. -/
def all_mapped {σ : Type} (t : target σ) (addr len : Nat) : Prop :=
  ∀ i, i < len → (flash_for_addr t ((addr + i) % 2 ^ 32)).isSome = true

/-- No two regions of the target share an address. -/
def flash_disjoint {σ : Type} (t : target σ) : Prop :=
  t.flash.Pairwise (fun f g => f.start + f.length ≤ g.start ∨ g.start + g.length ≤ f.start)

/-- The range of a capability call lies inside the region it was made to. -/
def call_inside {σ : Type} (c : flash_call σ) : Prop :=
  c.f.start ≤ c.addr ∧ c.addr + c.len ≤ c.f.start + c.f.length

/-- A region over the trivial driver state whose capabilities always succeed. -/
def plain_flash (start length align : Nat) : target_flash Unit :=
  { start := start, length := length, align := align,
    erase := fun _ _ s => (0, s), write := fun _ _ s => (0, s) }

/-- Layout of the region and arguments of a capability call, for comparison. -/
structure call_key where
  start : Nat
  length : Nat
  addr : Nat
  len : Nat
  data : List Nat
  deriving DecidableEq, Repr

/-- The comparable part of a capability call. -/
def flash_call.key {σ : Type} (c : flash_call σ) : call_key :=
  { start := c.f.start, length := c.f.length, addr := c.addr, len := c.len, data := c.data }

/-- The calls of a run, as comparable data. -/
def run_keys {σ : Type} (r : Except fault (flash_result σ)) : Except fault (List call_key) :=
  r.map (fun x => x.calls.map flash_call.key)

/-- Two adjacent regions `[1, 3)` and `[3, 7)`. -/
def t_odd : target Unit := { flash := [plain_flash 1 2 0, plain_flash 3 4 0] }

instance {σ : Type} (t : target σ) (addr len : Nat) : Decidable (all_mapped t addr len) := by
  unfold all_mapped; infer_instance

instance {σ : Type} (t : target σ) : Decidable (flash_disjoint t) := by
  unfold flash_disjoint; infer_instance

/-- A simulated flash memory: the byte stored at every address. -/
abbrev sim_mem : Type := Nat → Nat

/-- Simulated erase: the range takes the erased value. -/
def sim_erase (erased addr len : Nat) (m : sim_mem) : Int × sim_mem :=
  (0, fun x => if addr ≤ x ∧ x < addr + len then erased else m x)

/-- Simulated write: the given bytes are stored from the given address on. -/
def sim_write (addr : Nat) (data : List Nat) (m : sim_mem) : Int × sim_mem :=
  (0, fun x => if addr ≤ x ∧ x < addr + data.length then data.getD (x - addr) 0 else m x)

/-- Simulated read of `len` bytes. -/
def sim_read (m : sim_mem) (addr len : Nat) : List Nat :=
  (List.range len).map (fun i => m (addr + i))

/-- A region `[start, start + length)` of simulated flash. -/
def sim_flash (start length align erased : Nat) : target_flash sim_mem :=
  { start := start, length := length, align := align, erased := erased,
    erase := sim_erase erased, write := sim_write }

/-- Erase then write on the simulated flash, then read the range back. -/
def sim_round_trip (t : target sim_mem) (m : sim_mem) (dest : Nat) (data : List Nat) :
    Except fault (List Nat) :=
  match target_flash_erase t m dest data.length with
  | .error e => .error e
  | .ok r1 =>
    match target_flash_write t r1.st dest data data.length with
    | .error e => .error e
    | .ok r2 => .ok (sim_read r2.st dest data.length)

/-- Two adjacent regions `[0, 4)` and `[4, 8)`, both with alignment 2. -/
def t_aligned : target Unit := { flash := [plain_flash 0 4 2, plain_flash 4 4 2] }

/-- One region `[0, 4)`. -/
def t_single : target Unit := { flash := [plain_flash 0 4 0] }

/-- No region at all. -/
def t_empty : target Unit := { flash := [] }

/-- The fields of a region that the engine reads. -/
def region_layout {σ : Type} (f : target_flash σ) : Nat × Nat × Nat × Nat :=
  (f.start, f.length, f.align, f.erased)

/-- Two targets have the same regions up to the driver capabilities. -/
def same_layout {σ τ : Type} (t : target σ) (u : target τ) : Prop :=
  t.flash.map region_layout = u.flash.map region_layout

/-- What §4.3 asks of a write to a region `f` with an alignment constraint, for
a request of `len` bytes at `dest`: the call goes to `f`, starts at `dest`
rounded down to the alignment, has a length that is `dest % align + rem`
rounded up to the alignment for some part `rem` of the request, and carries the
erased value in every byte outside `[dest, dest + len)`. -/
def padded_call {σ : Type} (f : target_flash σ) (dest len : Nat) (c : flash_call σ) : Prop :=
  c.f = f ∧ c.addr = dest - dest % f.align ∧ c.addr % f.align = 0 ∧ c.len % f.align = 0 ∧
  c.data.length = c.len ∧
  (∃ rem, 0 < rem ∧ rem ≤ len ∧ c.len = ALIGN (dest % f.align + rem) f.align) ∧
  ∀ i, i < c.data.length → (c.addr + i < dest ∨ dest + len ≤ c.addr + i) →
    c.data[i]? = some f.erased

instance {σ τ : Type} (t : target σ) (u : target τ) : Decidable (same_layout t u) := by
  unfold same_layout region_layout; infer_instance

instance {σ : Type} (c : flash_call σ) : Decidable (call_inside c) := by
  unfold call_inside; infer_instance

/-- A region over the trivial driver state whose capabilities always fail with
status 1. -/
def failing_flash (start length align : Nat) : target_flash Unit :=
  { start := start, length := length, align := align,
    erase := fun _ _ s => (1, s), write := fun _ _ s => (1, s) }

/-- The layout of `t_aligned` with a first region whose driver fails. -/
def t_failing : target Unit := { flash := [failing_flash 0 4 2, plain_flash 4 4 2] }

/-- One region `[0, 8)` with alignment 4. -/
def t_pad : target Unit := { flash := [plain_flash 0 8 4] }

/-- Base address of the `bs`-byte sector that holds address `a`. -/
def sector_base (bs a : Nat) : Nat := a - a % bs

/-- State of a buffered write at byte granularity: the region record, the
driver state and the `write_buf` calls made so far. -/
structure sector_state (σ : Type) where
  f : target_flash σ
  st : σ
  calls : List (flash_call σ)

/-- One pass of the loop body of `target_flash_write_buffered` that copies the
first `n` bytes of `src` to address `dest`, as a change of state. -/
def chunk_step {σ : Type} (r : sector_state σ) (dest : Nat) (src : List Nat) (n : Nat) :
    sector_state σ :=
  if sector_base r.f.buf_size dest ≠ r.f.buf_addr then
    if r.f.buf_addr ≠ NO_SECTOR then
      { f := { r.f with
                buf_addr := sector_base r.f.buf_size dest,
                buf := some (memcpy (memset r.f.buf_size r.f.erased) (dest % r.f.buf_size)
                  src n) },
        st := (r.f.write_buf r.f.buf_addr (r.f.buf.getD []) r.st).2,
        calls := r.calls ++ [{ f := r.f, addr := r.f.buf_addr, len := r.f.buf_size,
                               data := r.f.buf.getD [],
                               status := (r.f.write_buf r.f.buf_addr (r.f.buf.getD []) r.st).1 }] }
    else
      { r with f := { r.f with
                buf_addr := sector_base r.f.buf_size dest,
                buf := some (memcpy (memset r.f.buf_size r.f.erased) (dest % r.f.buf_size)
                  src n) } }
  else
    { r with f := { r.f with
                buf := some (memcpy (r.f.buf.getD []) (dest % r.f.buf_size) src n) } }

/-- A region of the trivial driver state with a sector buffer of 4 bytes and no
open buffer. -/
def f_buf : target_flash Unit := { plain_flash 0 16 0 with buf_size := 4 }

/-- The region `f_buf` with an open buffer that holds the sector at 8. -/
def f_pending : target_flash Unit := { f_buf with buf := some [1, 2, 3, 4], buf_addr := 8 }

/-- A region whose sectors are single bytes, with no open buffer. -/
def f_byte : target_flash Unit := { plain_flash 0 16 0 with buf_size := 1 }

/-- The region as `target_flash_write_buffered` sees it once the buffer has been
allocated. -/
def session_start {σ : Type} (junk : Nat → Nat) (f : target_flash σ) : target_flash σ :=
  match f.buf with
  | none => { f with buf := some (malloc junk f.buf_size), buf_addr := NO_SECTOR }
  | some _ => f

/-- The function `target_new`: a zeroed record is linked at the head of
`target_list`; the pointer returned designates that head.  Allocation is taken
to succeed. -/
def target_new {σ : Type} (target_list : List (target σ)) : List (target σ) :=
  ({} : target σ) :: target_list

/-- What a driver does with the pointer that `target_new` returned: it fills in
the record at the head of the list. -/
def target_fill {σ : Type} (x : target σ) : List (target σ) → List (target σ)
  | [] => []
  | _ :: rest => x :: rest

/-- The loop of `target_foreach`: the calls `cb(i, t, context)` made, in order. -/
def target_foreach_loop {σ : Type} : List (target σ) → Int → List (Int × target σ)
  | [], _ => []
  | t :: ts, i => (i, t) :: target_foreach_loop ts (i + 1)

/-- The function `target_foreach`: the visitor calls made and the value
returned. -/
def target_foreach {σ : Type} (target_list : List (target σ)) :
    List (Int × target σ) × Bool :=
  (target_foreach_loop target_list 1, !target_list.isEmpty)

/-- What `target_attach` does, in the order of the statements of the source. -/
inductive attach_event where
  | destroy_called (tag : Nat)
  | callback_installed (tag : Option Nat)
  | attach_called
  deriving DecidableEq, Repr

/-- What `target_attach` leaves behind: whether the pointer returned is the
target (`true`) or `NULL` (`false`), the target record, the state and the
events. -/
structure attach_result (σ : Type) where
  ret : Bool
  t : target σ
  st : σ
  events : List attach_event

/-- The function `target_attach`. -/
def target_attach {σ : Type} (t : target σ) (destroy_cb : Option (target_destroy_callback σ))
    (s : σ) : Except fault (attach_result σ) :=
  let s1 := match t.destroy_callback with
    | some d => d.run s
    | none => s
  let e1 := match t.destroy_callback with
    | some d => [attach_event.destroy_called d.tag]
    | none => []
  let t1 := { t with destroy_callback := destroy_cb }
  let e2 := e1 ++ [attach_event.callback_installed (destroy_cb.map (fun d => d.tag))]
  match t.attach with
  | none => .error .null_deref
  | some a =>
    let r := a s1
    if !r.1 then .ok { ret := false, t := t1, st := r.2, events := e2 ++ [.attach_called] }
    else .ok { ret := true, t := { t1 with attached := true }, st := r.2,
               events := e2 ++ [.attach_called] }

/-- What `target_attach_n` leaves behind: the record behind the pointer
returned (`none` for `NULL`), the target list, the state and the events. -/
structure attach_n_result (σ : Type) where
  ret : Option (target σ)
  target_list : List (target σ)
  st : σ
  events : List attach_event

/-- The loop of `target_attach_n`. -/
def target_attach_n_loop {σ : Type} (n : Int)
    (destroy_cb : Option (target_destroy_callback σ)) :
    List (target σ) → Int → σ → Except fault (attach_n_result σ)
  | [], _, s => .ok { ret := none, target_list := [], st := s, events := [] }
  | t :: ts, i, s =>
    if i = n then
      match target_attach t destroy_cb s with
      | .error e => .error e
      | .ok r =>
        .ok { ret := if r.ret then some r.t else none, target_list := r.t :: ts, st := r.st,
              events := r.events }
    else
      match target_attach_n_loop n destroy_cb ts (i + 1) s with
      | .error e => .error e
      | .ok r => .ok { r with target_list := t :: r.target_list }

/-- The function `target_attach_n`. -/
def target_attach_n {σ : Type} (n : Int) (destroy_cb : Option (target_destroy_callback σ))
    (target_list : List (target σ)) (s : σ) : Except fault (attach_n_result σ) :=
  target_attach_n_loop n destroy_cb target_list 1 s

/-- The function `target_add_commands`: the new table goes to the end of the
list. -/
def target_add_commands {σ : Type} (t : target σ) (cmds : List (command_s σ))
    (name : List Char) : target σ :=
  { t with commands := t.commands ++ [{ specific_name := name, cmds := cmds }] }

/-- The test `strncmp(a, b, n) == 0` of the C library on two C strings. -/
def strncmp_eq : List Char → List Char → Nat → Bool
  | _, _, 0 => true
  | [], [], _ + 1 => true
  | [], _ :: _, _ + 1 => false
  | _ :: _, [], _ + 1 => false
  | x :: xs, y :: ys, n + 1 => x == y && strncmp_eq xs ys n

/-- The text `cmd` starts with the whole of `tok`. -/
def starts_with : List Char → List Char → Bool
  | [], _ => true
  | _ :: _, [] => false
  | x :: xs, y :: ys => x == y && starts_with xs ys

/-- What `target_command` leaves behind: the value returned, the state and the
entries whose handler was invoked. -/
structure command_result (σ : Type) where
  ret : Int
  st : σ
  invoked : List (command_s σ)

/-- The inner loop of `target_command` over the entries of one table; `none`
when the loop ends without a match. -/
def target_command_cmds {σ : Type} :
    List (command_s σ) → List (List Char) → σ → Except fault (Option (command_result σ))
  | [], _, _ => .ok none
  | c :: cs, argv, s =>
    match argv with
    | [] => .error .null_deref
    | tok :: _ =>
      if strncmp_eq tok c.cmd tok.length then
        let r := c.handler argv s
        .ok (some { ret := if r.1 then 0 else 1, st := r.2, invoked := [c] })
      else target_command_cmds cs argv s

/-- The outer loop of `target_command` over the tables. -/
def target_command_tables {σ : Type} :
    List (target_command_s σ) → List (List Char) → σ → Except fault (command_result σ)
  | [], _, s => .ok { ret := -1, st := s, invoked := [] }
  | tc :: tcs, argv, s =>
    match target_command_cmds tc.cmds argv s with
    | .error e => .error e
    | .ok (some r) => .ok r
    | .ok none => target_command_tables tcs argv s

/-- The function `target_command`; `argv[0]` is the head of `argv`. -/
def target_command {σ : Type} (t : target σ) (argv : List (List Char)) (s : σ) :
    Except fault (command_result σ) :=
  target_command_tables t.commands argv s

/-- All command entries of a target: tables in list order, entries in their
order within a table. -/
def command_entries {σ : Type} (t : target σ) : List (command_s σ) :=
  (t.commands.map (fun tc => tc.cmds)).flatten

/-- The result of dispatching to the first entry, if any, whose text starts
with the token. -/
def first_match_result {σ : Type} (entries : List (command_s σ)) (tok : List Char)
    (argv : List (List Char)) (s : σ) : command_result σ :=
  match entries.find? (fun c => starts_with tok c.cmd) with
  | none => { ret := -1, st := s, invoked := [] }
  | some c =>
    { ret := if (c.handler argv s).1 then 0 else 1, st := (c.handler argv s).2, invoked := [c] }

/-- A handler over the trivial state that reports the given result. -/
def const_handler (b : Bool) : List (List Char) → Unit → Bool × Unit := fun _ s => (b, s)

/-- A target with the table `init` registered before the table `initialize`,
then a table with `reset`; the first handler succeeds, the others report
failure. -/
def t_cmds : target Unit :=
  target_add_commands
    (target_add_commands
      (target_add_commands {} [{ cmd := "init".toList, handler := const_handler true }]
        "first".toList)
      [{ cmd := "initialize".toList, handler := const_handler false }] "second".toList)
    [{ cmd := "reset".toList, handler := const_handler false }] "third".toList

/-- The target list after the registrations `xs`, oldest first: each one is a
call of `target_new` followed by the driver filling in the new record. -/
def registry_of {σ : Type} (xs : List (target σ)) : List (target σ) :=
  xs.foldl (fun target_list x => target_fill x (target_new target_list)) []

/-- The ordinals `i, i + 1, ...` for `n` visits. -/
def ordinals (i : Int) (n : Nat) : List Int :=
  (List.range n).map (fun (k : Nat) => i + Int.ofNat k)

/-- A target whose attach capability succeeds. -/
def t_first : target Unit := { driver := "first".toList, attach := some (fun s => (true, s)) }

/-- A target that is attached and owned through callback 7, and whose attach
capability fails. -/
def t_second : target Unit :=
  { driver := "second".toList, attach := some (fun s => (false, s)), attached := true,
    destroy_callback := some { tag := 7, run := fun s => s } }

/-- The callback with tag 9 that leaves the state alone. -/
def cb_nine : target_destroy_callback Unit := { tag := 9, run := fun s => s }

/-- The target list after a driver has registered `t_first` and then a driver
has registered `t_second`. -/
def two_targets : List (target Unit) := registry_of [t_first, t_second]

/-- Name, `attached` flag and callback tag of a target, for comparison. -/
structure target_view where
  driver : List Char
  attached : Bool
  callback : Option Nat
  deriving DecidableEq, Repr

/-- The comparable part of a target. -/
def target.view {σ : Type} (t : target σ) : target_view :=
  { driver := t.driver, attached := t.attached,
    callback := t.destroy_callback.map (fun d => d.tag) }

/-- The comparable part of what `target_attach_n` leaves behind. -/
structure attach_n_view where
  ret : Option target_view
  target_list : List target_view
  events : List attach_event
  deriving DecidableEq, Repr

/-- The outcome of `target_attach_n` as comparable data. -/
def attach_n_result.view {σ : Type} (r : Except fault (attach_n_result σ)) :
    Except fault attach_n_view :=
  r.map (fun x => { ret := x.ret.map target.view, target_list := x.target_list.map target.view,
                    events := x.events })

/-- The function `target_add_ram`: the new region goes to the head of the list. -/
def target_add_ram {σ : Type} (t : target σ) (start len : Nat) : target σ :=
  { t with ram := { start := start, length := len } :: t.ram }

/-- The function `target_add_flash`: the new region goes to the head of the
list. -/
def target_add_flash {σ : Type} (t : target σ) (f : target_flash σ) : target σ :=
  { t with flash := f :: t.flash }

/-- The hexadecimal digit for a value below 16, as `printf` writes it for `x`. -/
def hex_digit (d : Nat) : Char := "0123456789abcdef".toList.getD d '0'

/-- The C library conversion `%08x` (`"%08" PRIx32`) of a `uint32_t`: eight
digits, most significant first. -/
def hex8 (v : Nat) : List Char :=
  [7, 6, 5, 4, 3, 2, 1, 0].map (fun k => hex_digit (v / 16 ^ k % 16))

/-- The text that the format of `map_ram` produces. -/
def ram_text (r : target_ram) : List Char :=
  "<memory type=\"ram\" start=\"0x".toList ++ hex8 r.start ++ "\" length=\"0x".toList
    ++ hex8 r.length ++ "\"/>".toList

/-- The text that the first format of `map_flash` produces. -/
def flash_text_head {σ : Type} (f : target_flash σ) : List Char :=
  "<memory type=\"flash\" start=\"0x".toList ++ hex8 f.start ++ "\" length=\"0x".toList
    ++ hex8 f.length ++ "\">".toList

/-- The text that the second format of `map_flash` produces. -/
def flash_text_tail {σ : Type} (f : target_flash σ) : List Char :=
  "<property name=\"blocksize\">0x".toList ++ hex8 f.blocksize
    ++ "</property></memory>".toList

/-- The C library call `snprintf(&buf[i], size, ...)` whose formatted text is
`text`: the C string that `buf` holds afterwards and the value returned.  At
most `size - 1` characters are written after the first `i` characters of the
buffer, nothing when `size` is 0; the value returned is the full length of the
text. -/
def snprintf (buf : List Char) (i size : Nat) (text : List Char) : List Char × Nat :=
  (if size = 0 then buf else buf.take i ++ text.take (size - 1), text.length)

/-- The function `map_ram` called as `map_ram(&tmp[pos], len, ram)`. -/
def map_ram (tmp : List Char) (pos len : Nat) (ram : target_ram) : List Char × Nat :=
  snprintf tmp pos len (ram_text ram)

/-- The function `map_flash` called as `map_flash(&tmp[pos], len, f)`.  When
the first `snprintf` returns more than `len`, the second one is given a pointer
past the buffer and the size `len - i` wrapped around. -/
def map_flash {σ : Type} (tmp : List Char) (pos len : Nat) (f : target_flash σ) :
    Except fault (List Char × Nat) :=
  let r1 := snprintf tmp pos len (flash_text_head f)
  let i := r1.2
  if len < i then .error .out_of_bounds
  else
    let r2 := snprintf r1.1 (pos + i) (len - i) (flash_text_tail f)
    .ok (r2.1, i + r2.2)

/-- The loop of `target_mem_map` over the RAM regions; `i > len` makes
`&tmp[i]` point past the buffer and `len - i` wrap around. -/
def mem_map_ram_loop (len : Nat) : List target_ram → List Char → Nat →
    Except fault (List Char × Nat)
  | [], tmp, i => .ok (tmp, i)
  | r :: rs, tmp, i =>
    if len < i then .error .out_of_bounds
    else mem_map_ram_loop len rs (map_ram tmp i (len - i) r).1 (i + (map_ram tmp i (len - i) r).2)

/-- The loop of `target_mem_map` over the flash regions. -/
def mem_map_flash_loop {σ : Type} (len : Nat) : List (target_flash σ) → List Char → Nat →
    Except fault (List Char × Nat)
  | [], tmp, i => .ok (tmp, i)
  | f :: fs, tmp, i =>
    if len < i then .error .out_of_bounds
    else
      match map_flash tmp i (len - i) f with
      | .error e => .error e
      | .ok x => mem_map_flash_loop len fs x.1 (i + x.2)

/-- The function `target_mem_map`: the string returned and the target with its
`dyn_mem_map`.  The working buffer is represented by the C string it holds;
its content before the first `snprintf` does not matter. -/
def target_mem_map {σ : Type} (t : target σ) : Except fault (List Char × target σ) :=
  match t.dyn_mem_map with
  | some m => .ok (m, t)
  | none =>
    let len := 1024
    let r0 := snprintf [] 0 len "<memory-map>".toList
    match mem_map_ram_loop len t.ram r0.1 r0.2 with
    | .error e => .error e
    | .ok x1 =>
      match mem_map_flash_loop len t.flash x1.1 x1.2 with
      | .error e => .error e
      | .ok x2 =>
        if len < x2.2 then .error .out_of_bounds
        else
          let r3 := snprintf x2.1 x2.2 (len - x2.2) "</memory-map>".toList
          .ok (r3.1, { t with dyn_mem_map := some r3.1 })

/-- The memory map descriptor of §6: the opening tag, one element for each RAM
region, one element with a nested block size property for each flash region,
both in list order, and the closing tag. -/
def mem_map_text {σ : Type} (t : target σ) : List Char :=
  "<memory-map>".toList ++ (t.ram.map ram_text).flatten
    ++ (t.flash.map (fun f => flash_text_head f ++ flash_text_tail f)).flatten
    ++ "</memory-map>".toList

/-- The value of a hexadecimal digit. -/
def hex_value (c : Char) : Nat := "0123456789abcdef".toList.indexOf c

/-- The number that a string of hexadecimal digits denotes. -/
def hex_number (l : List Char) : Nat := l.foldl (fun acc c => 16 * acc + hex_value c) 0

/-- A change of the region lists of a target. -/
inductive region_change (σ : Type) where
  | add_ram (start len : Nat)
  | add_flash (f : target_flash σ)

/-- The target after a sequence of `target_add_ram` and `target_add_flash`
calls. -/
def apply_changes {σ : Type} (t : target σ) : List (region_change σ) → target σ
  | [] => t
  | .add_ram start len :: cs => apply_changes (target_add_ram t start len) cs
  | .add_flash f :: cs => apply_changes (target_add_flash t f) cs

/-- A target with one RAM region and the flash regions of `n` sectors of 64 KiB
from 0x08000000 on, the region at the lowest address added first. -/
def t_sectors (n : Nat) : target Unit :=
  { ram := [{ start := 0x20000000, length := 0x5000 }],
    flash := ((List.range n).map (fun k =>
      { plain_flash (0x08000000 + 0x10000 * k) 0x10000 0 with blocksize := 0x10000 })).reverse }

/-- Two adjacent regions `[0, 4)` and `[4, 8)` without an alignment constraint. -/
def t_adjacent : target Unit := { flash := [plain_flash 0 4 0, plain_flash 4 4 0] }

/-- The calls `cs` are non-empty chunks that follow one another from address
`a` on, each made to the region that `flash_for_addr` finds for its start. -/
def erase_chain {σ : Type} (t : target σ) : Nat → List (flash_call σ) → Prop
  | _, [] => True
  | a, c :: cs =>
    c.addr = a ∧ 0 < c.len ∧ flash_for_addr t a = some c.f ∧ erase_chain t (a + c.len) cs

/-- One region `[2, 6)` with alignment 2: it does not start at a multiple of
its length. -/
def t_offset : target Unit := { flash := [plain_flash 2 4 2] }

/-- The statuses that the calls `cs` get, and the driver state they leave, when
they are made one after the other from the driver state `s`; `cap` says which
capability of its region a call invokes. -/
def replay_calls {σ : Type} (cap : flash_call σ → σ → Int × σ) :
    List (flash_call σ) → σ → List Int × σ
  | [], s => ([], s)
  | c :: cs, s =>
    ((cap c s).1 :: (replay_calls cap cs (cap c s).2).1, (replay_calls cap cs (cap c s).2).2)

/-- An erase call as a call of the `erase` capability of its region. -/
def erase_cap {σ : Type} (c : flash_call σ) (s : σ) : Int × σ := c.f.erase c.addr c.len s

/-- A write call as a call of the `write` capability of its region. -/
def write_cap {σ : Type} (c : flash_call σ) (s : σ) : Int × σ := c.f.write c.addr c.data s

/-- The write that one pass of the loop of `target_flash_write` issues to the
region `f` that owns `dest`, when `len` bytes `src` are still to be written. -/
def write_key {σ : Type} (f : target_flash σ) (dest : Nat) (src : List Nat) (len : Nat) :
    call_key :=
  if 1 < f.align then
    { start := f.start, length := f.length, addr := dest - dest % f.align,
      len := ALIGN (dest % f.align + len) f.align,
      data := memcpy (memset (ALIGN (dest % f.align + len) f.align) f.erased)
        (dest % f.align) src len }
  else
    { start := f.start, length := f.length, addr := dest,
      len := MIN len (f.length - dest % f.length),
      data := src.take (MIN len (f.length - dest % f.length)) }

/-- The writes of `target_flash_write` for `len` bytes `src` at a `dest` owned
by region `f`, in closed form: with `k = f.length - dest % f.length` the bytes
taken per pass, there are `len / k` rounded up passes, and pass `j` issues the
write for the request that remains after `j * k` bytes.  No status enters. -/
def write_plan {σ : Type} (f : target_flash σ) (dest : Nat) (src : List Nat) (len : Nat) :
    List call_key :=
  (List.range ((len + (f.length - dest % f.length) - 1) / (f.length - dest % f.length))).map
    (fun j => write_key f dest (src.drop (j * (f.length - dest % f.length)))
      (len - j * (f.length - dest % f.length)))

/-- The erase calls `cs` are what `target_flash_erase` owes for the request
`(a, len)`, with no regard to statuses: none when `len` is 0; otherwise the
first call is made at `a` to the region that `flash_for_addr` finds there, for
`MIN len (length - a % length)` bytes, and the rest are owed for what remains. -/
def erase_steps {σ : Type} (t : target σ) : Nat → Nat → List (flash_call σ) → Prop
  | _, len, [] => len = 0
  | a, len, c :: cs =>
    0 < len ∧ c.addr = a ∧ flash_for_addr t a = some c.f ∧
    c.len = MIN len (c.f.length - a % c.f.length) ∧ c.data = [] ∧
    erase_steps t (a + c.len) (len - c.len) cs

theorem nat_lor_eq_zero (m n : Nat) : m ||| n = 0 ↔ m = 0 ∧ n = 0 := by
  constructor
  · intro h
    have key : ∀ i, (m.testBit i || n.testBit i) = false := by
      intro i
      rw [← Nat.testBit_or, h]; simp
    constructor
    · apply Nat.eq_of_testBit_eq; intro i
      have := key i
      simp at this ⊢; exact this.1
    · apply Nat.eq_of_testBit_eq; intro i
      have := key i
      simp at this ⊢; exact this.2
  · rintro ⟨rfl, rfl⟩; rfl

theorem int_lor_eq_zero (a b : Int) : Int.lor a b = 0 ↔ a = 0 ∧ b = 0 := by
  cases a <;> cases b <;> simp [Int.lor, nat_lor_eq_zero]

theorem MIN_le_left (x y : Nat) : MIN x y ≤ x := by
  unfold MIN; split <;> omega

theorem MIN_pos {x y : Nat} (hx : 0 < x) (hy : 0 < y) : 0 < MIN x y := by
  unfold MIN; split <;> omega

theorem flash_for_addr_some {σ : Type} {t : target σ} {addr : Nat} {f : target_flash σ}
    (h : flash_for_addr t addr = some f) :
    f ∈ t.flash ∧ f.start ≤ addr ∧ addr < (f.start + f.length) % 2 ^ 32 := by
  unfold flash_for_addr at h
  have h1 := List.mem_of_find?_eq_some h
  have h2 := List.find?_some h
  simp [flash_claims] at h2
  exact ⟨h1, h2.1, h2.2⟩

theorem flash_for_addr_length_pos {σ : Type} {t : target σ} {addr : Nat} {f : target_flash σ}
    (h : flash_for_addr t addr = some f) : 0 < f.length := by
  obtain ⟨_, h1, h2⟩ := flash_for_addr_some h
  rcases Nat.eq_zero_or_pos f.length with h0 | h0
  · rw [h0] at h2
    have : (f.start + 0) % 2 ^ 32 ≤ f.start := Nat.mod_le _ _
    omega
  · exact h0

theorem all_mapped_head {σ : Type} {t : target σ} {addr len : Nat} (ha : addr < 2 ^ 32)
    (hl : 0 < len) (h : all_mapped t addr len) : ∃ f, flash_for_addr t addr = some f := by
  have := h 0 hl
  rw [Nat.add_zero, Nat.mod_eq_of_lt ha] at this
  exact Option.isSome_iff_exists.mp this

theorem all_mapped_tail {σ : Type} {t : target σ} {addr len n : Nat}
    (h : all_mapped t addr len) : all_mapped t ((addr + n) % 2 ^ 32) (len - n) := by
  intro i hi
  have := h (n + i) (by omega)
  have e : ((addr + n) % 2 ^ 32 + i) % 2 ^ 32 = (addr + (n + i)) % 2 ^ 32 := by omega
  rw [e]; exact this

theorem erase_loop_ok {σ : Type} (t : target σ) :
    ∀ (fuel : Nat) (s : σ) (addr len : Nat) (ret : Int) (calls : List (flash_call σ)),
      len ≤ fuel → addr < 2 ^ 32 → all_mapped t addr len →
      ∃ r new, target_flash_erase_loop t fuel s addr len ret calls = .ok r ∧
        r.calls = calls ++ new ∧ (r.ret = 0 ↔ ret = 0 ∧ ∀ c ∈ new, c.status = 0) := by
  intro fuel
  induction fuel with
  | zero =>
    intro s addr len ret calls hl _ _
    have : len = 0 := by omega
    subst this
    exact ⟨{ ret := ret, st := s, calls := calls }, [],
      by simp [target_flash_erase_loop], by simp, by simp⟩
  | succ fuel ih =>
    intro s addr len ret calls hl ha hm
    by_cases h0 : len = 0
    · subst h0
      exact ⟨{ ret := ret, st := s, calls := calls }, [],
        by simp [target_flash_erase_loop], by simp, by simp⟩
    · obtain ⟨f, hf⟩ := all_mapped_head ha (Nat.pos_of_ne_zero h0) hm
      have hpos := flash_for_addr_length_pos hf
      have hmod : addr % f.length < f.length := Nat.mod_lt _ hpos
      have htl : 0 < MIN len (f.length - addr % f.length) :=
        MIN_pos (Nat.pos_of_ne_zero h0) (by omega)
      have htle := MIN_le_left len (f.length - addr % f.length)
      obtain ⟨r, new, hr, hc, hz⟩ := ih (f.erase addr (MIN len (f.length - addr % f.length)) s).2
        ((addr + MIN len (f.length - addr % f.length)) % 2 ^ 32)
        (len - MIN len (f.length - addr % f.length))
        (Int.lor ret (f.erase addr (MIN len (f.length - addr % f.length)) s).1)
        (calls ++ [{ f := f, addr := addr, len := MIN len (f.length - addr % f.length),
                     data := [], status := (f.erase addr (MIN len (f.length - addr % f.length)) s).1 }])
        (by omega) (Nat.mod_lt _ (by norm_num)) (all_mapped_tail hm)
      refine ⟨r, { f := f, addr := addr, len := MIN len (f.length - addr % f.length),
                   data := [],
                   status := (f.erase addr (MIN len (f.length - addr % f.length)) s).1 } :: new,
        ?_, ?_, ?_⟩
      · rw [target_flash_erase_loop]
        simp only [h0, if_false, hf, Nat.ne_of_gt hpos]
        exact hr
      · rw [hc]; simp
      · rw [hz, int_lor_eq_zero]; simp [and_assoc]

theorem find_same_layout {σ τ : Type} (addr : Nat) :
    ∀ (l : List (target_flash σ)) (m : List (target_flash τ)),
      l.map region_layout = m.map region_layout →
      (l.find? (flash_claims addr)).map region_layout
        = (m.find? (flash_claims addr)).map region_layout := by
  intro l
  induction l with
  | nil =>
    intro m h
    cases m with
    | nil => rfl
    | cons b m => simp at h
  | cons a l ih =>
    intro m h
    cases m with
    | nil => simp at h
    | cons b m =>
      simp only [List.map_cons, List.cons.injEq] at h
      obtain ⟨h1, h2⟩ := h
      have e : flash_claims addr a = flash_claims addr b := by
        simp only [region_layout, Prod.mk.injEq] at h1
        simp [flash_claims, h1.1, h1.2.1]
      simp only [List.find?_cons, e]
      cases flash_claims addr b with
      | true => simp [h1]
      | false => exact ih m h2

theorem flash_for_addr_same_layout {σ τ : Type} {t : target σ} {u : target τ}
    (h : same_layout t u) (addr : Nat) :
    (flash_for_addr t addr).map region_layout = (flash_for_addr u addr).map region_layout :=
  find_same_layout addr _ _ h

theorem erase_loop_same_layout {σ τ : Type} {t : target σ} {u : target τ}
    (h : same_layout t u) :
    ∀ (fuel : Nat) (s : σ) (s2 : τ) (addr len : Nat) (ret ret2 : Int)
      (calls : List (flash_call σ)) (calls2 : List (flash_call τ)),
      calls.map flash_call.key = calls2.map flash_call.key →
      run_keys (target_flash_erase_loop t fuel s addr len ret calls)
        = run_keys (target_flash_erase_loop u fuel s2 addr len ret2 calls2) := by
  intro fuel
  induction fuel with
  | zero =>
    intro s s2 addr len ret ret2 calls calls2 hc
    by_cases h0 : len = 0
    · simp [target_flash_erase_loop, h0, run_keys, Except.map, hc]
    · simp [target_flash_erase_loop, h0, run_keys, Except.map]
  | succ fuel ih =>
    intro s s2 addr len ret ret2 calls calls2 hc
    by_cases h0 : len = 0
    · simp [target_flash_erase_loop, h0, run_keys, Except.map, hc]
    · have hl := flash_for_addr_same_layout h addr
      rw [target_flash_erase_loop, target_flash_erase_loop]
      simp only [h0, if_false]
      cases hf : flash_for_addr t addr with
      | none =>
        rw [hf] at hl
        cases hg : flash_for_addr u addr with
        | none => simp [run_keys, Except.map]
        | some g => rw [hg] at hl; simp at hl
      | some f =>
        rw [hf] at hl
        cases hg : flash_for_addr u addr with
        | none => rw [hg] at hl; simp at hl
        | some g =>
          rw [hg] at hl
          simp only [Option.map_some', Option.some.injEq, region_layout, Prod.mk.injEq] at hl
          obtain ⟨e1, e2, e3, e4⟩ := hl
          simp only []
          by_cases hz : f.length = 0
          · have hz2 : g.length = 0 := by omega
            simp [hz, hz2, run_keys, Except.map]
          · have hz2 : ¬ g.length = 0 := by omega
            simp only [hz, hz2, if_false]
            rw [← e2]
            apply ih
            simp [hc, flash_call.key, e1, e2]

theorem write_loop_same_layout {σ τ : Type} {t : target σ} {u : target τ}
    (h : same_layout t u) (dest : Nat) :
    ∀ (fuel : Nat) (s : σ) (s2 : τ) (src : List Nat) (len : Nat) (ret ret2 : Int)
      (calls : List (flash_call σ)) (calls2 : List (flash_call τ)),
      calls.map flash_call.key = calls2.map flash_call.key →
      run_keys (target_flash_write_loop t dest fuel s src len ret calls)
        = run_keys (target_flash_write_loop u dest fuel s2 src len ret2 calls2) := by
  intro fuel
  induction fuel with
  | zero =>
    intro s s2 src len ret ret2 calls calls2 hc
    by_cases h0 : len = 0
    · simp [target_flash_write_loop, h0, run_keys, Except.map, hc]
    · simp [target_flash_write_loop, h0, run_keys, Except.map]
  | succ fuel ih =>
    intro s s2 src len ret ret2 calls calls2 hc
    by_cases h0 : len = 0
    · simp [target_flash_write_loop, h0, run_keys, Except.map, hc]
    · have hl := flash_for_addr_same_layout h dest
      rw [target_flash_write_loop, target_flash_write_loop]
      simp only [h0, if_false]
      cases hf : flash_for_addr t dest with
      | none =>
        rw [hf] at hl
        cases hg : flash_for_addr u dest with
        | none => simp [run_keys, Except.map]
        | some g => rw [hg] at hl; simp at hl
      | some f =>
        rw [hf] at hl
        cases hg : flash_for_addr u dest with
        | none => rw [hg] at hl; simp at hl
        | some g =>
          rw [hg] at hl
          simp only [Option.map_some', Option.some.injEq, region_layout, Prod.mk.injEq] at hl
          obtain ⟨e1, e2, e3, e4⟩ := hl
          simp only []
          by_cases hz : f.length = 0
          · have hz2 : g.length = 0 := by omega
            simp [hz, hz2, run_keys, Except.map]
          · have hz2 : ¬ g.length = 0 := by omega
            simp only [hz, hz2, if_false]
            rw [← e2, ← e3, ← e4]
            by_cases hal : 1 < f.align
            · simp only [hal, if_true]
              apply ih
              simp [hc, flash_call.key, e1, e2]
            · simp only [hal, if_false]
              apply ih
              simp [hc, flash_call.key, e1, e2]

theorem write_loop_ok {σ : Type} (t : target σ) (dest : Nat) {f : target_flash σ}
    (hf : flash_for_addr t dest = some f) :
    ∀ (fuel : Nat) (s : σ) (src : List Nat) (len : Nat) (ret : Int)
      (calls : List (flash_call σ)), len ≤ fuel →
      ∃ r new, target_flash_write_loop t dest fuel s src len ret calls = .ok r ∧
        r.calls = calls ++ new ∧ (r.ret = 0 ↔ ret = 0 ∧ ∀ c ∈ new, c.status = 0) := by
  have hpos := flash_for_addr_length_pos hf
  have hmod : dest % f.length < f.length := Nat.mod_lt _ hpos
  intro fuel
  induction fuel with
  | zero =>
    intro s src len ret calls hl
    have : len = 0 := by omega
    subst this
    exact ⟨{ ret := ret, st := s, calls := calls }, [],
      by simp [target_flash_write_loop], by simp, by simp⟩
  | succ fuel ih =>
    intro s src len ret calls hl
    by_cases h0 : len = 0
    · subst h0
      exact ⟨{ ret := ret, st := s, calls := calls }, [],
        by simp [target_flash_write_loop], by simp, by simp⟩
    · have htl : 0 < MIN len (f.length - dest % f.length) :=
        MIN_pos (Nat.pos_of_ne_zero h0) (by omega)
      have htle := MIN_le_left len (f.length - dest % f.length)
      rw [target_flash_write_loop]
      simp only [h0, if_false, hf, Nat.ne_of_gt hpos]
      by_cases hal : 1 < f.align
      · simp only [hal, if_true]
        obtain ⟨r, new, hr, hc, hz⟩ := ih
          (f.write (dest - dest % f.align)
            (memcpy (memset (ALIGN (dest % f.align + len) f.align) f.erased)
              (dest % f.align) src len) s).2
          (src.drop (MIN len (f.length - dest % f.length)))
          (len - MIN len (f.length - dest % f.length))
          (Int.lor ret (f.write (dest - dest % f.align)
            (memcpy (memset (ALIGN (dest % f.align + len) f.align) f.erased)
              (dest % f.align) src len) s).1)
          (calls ++ [{ f := f, addr := dest - dest % f.align,
                       len := ALIGN (dest % f.align + len) f.align,
                       data := memcpy (memset (ALIGN (dest % f.align + len) f.align) f.erased)
                         (dest % f.align) src len,
                       status := (f.write (dest - dest % f.align)
                         (memcpy (memset (ALIGN (dest % f.align + len) f.align) f.erased)
                           (dest % f.align) src len) s).1 }])
          (by omega)
        refine ⟨r, _, hr, by rw [hc, List.append_assoc], ?_⟩
        rw [hz, int_lor_eq_zero]; simp [and_assoc]
      · simp only [hal, if_false]
        obtain ⟨r, new, hr, hc, hz⟩ := ih
          (f.write dest (src.take (MIN len (f.length - dest % f.length))) s).2
          (src.drop (MIN len (f.length - dest % f.length)))
          (len - MIN len (f.length - dest % f.length))
          (Int.lor ret (f.write dest (src.take (MIN len (f.length - dest % f.length))) s).1)
          (calls ++ [{ f := f, addr := dest, len := MIN len (f.length - dest % f.length),
                       data := src.take (MIN len (f.length - dest % f.length)),
                       status := (f.write dest
                         (src.take (MIN len (f.length - dest % f.length))) s).1 }])
          (by omega)
        refine ⟨r, _, hr, by rw [hc, List.append_assoc], ?_⟩
        rw [hz, int_lor_eq_zero]; simp [and_assoc]

theorem ALIGN_dvd (x n : Nat) : n ∣ ALIGN x n := by
  unfold ALIGN; exact Nat.dvd_mul_left _ _

theorem le_ALIGN (x : Nat) {n : Nat} (hn : 0 < n) : x ≤ ALIGN x n := by
  unfold ALIGN
  have h1 := Nat.div_add_mod (x + n - 1) n
  have h2 := Nat.mod_lt (x + n - 1) hn
  rw [Nat.mul_comm] at h1
  generalize (x + n - 1) / n * n = q at h1 ⊢
  generalize (x + n - 1) % n = r at h1 h2
  omega

theorem memcpy_memset_length (size e off : Nat) (src : List Nat) (n : Nat)
    (h1 : n ≤ src.length) (h2 : off + n ≤ size) :
    (memcpy (memset size e) off src n).length = size := by
  simp only [memcpy, memset, List.length_append, List.length_take, List.length_drop,
    List.length_replicate]
  omega

theorem memcpy_memset_pad (size e off : Nat) (src : List Nat) (n : Nat)
    (h1 : n ≤ src.length) (i : Nat) (hi : i < size)
    (ho : i < off ∨ off + n ≤ i) :
    (memcpy (memset size e) off src n)[i]? = some e := by
  simp only [memcpy, memset, List.append_assoc]
  rcases ho with ho | ho
  · rw [List.getElem?_append_left (by simp; omega)]
    simp [List.getElem?_take, List.getElem?_replicate]; omega
  · rw [List.getElem?_append_right (by simp; omega)]
    rw [List.getElem?_append_right (by simp; omega)]
    simp [List.getElem?_drop, List.getElem?_replicate]; omega

theorem memcpy_memset_data (size e off : Nat) (src : List Nat) (n : Nat)
    (h1 : n ≤ src.length) (h2 : off + n ≤ size) (i : Nat) (hi : i < n) :
    (memcpy (memset size e) off src n)[off + i]? = src[i]? := by
  simp only [memcpy, memset, List.append_assoc]
  rw [List.getElem?_append_right (by simp)]
  have e1 : off + i - (List.take off (List.replicate size e)).length = i := by simp; omega
  rw [e1, List.getElem?_append_left]
  · simp [List.getElem?_take, hi]
  · simp; omega

theorem padded_call_mono {σ : Type} {f : target_flash σ} {dest len n : Nat}
    {c : flash_call σ} (h : padded_call f dest len c) (hn : len ≤ n) :
    padded_call f dest n c := by
  obtain ⟨h1, h2, h3, h4, h5, ⟨rem, h6, h7, h8⟩, h9⟩ := h
  refine ⟨h1, h2, h3, h4, h5, ⟨rem, h6, by omega, h8⟩, ?_⟩
  intro i hi ho
  exact h9 i hi (by omega)

theorem padded_call_first {σ : Type} (f : target_flash σ) (hA : 1 < f.align)
    (dest : Nat) (src : List Nat) (len : Nat) (hl : 0 < len) (hs : src.length = len)
    (st : Int) :
    padded_call f dest len
      { f := f, addr := dest - dest % f.align, len := ALIGN (dest % f.align + len) f.align,
        data := memcpy (memset (ALIGN (dest % f.align + len) f.align) f.erased)
          (dest % f.align) src len,
        status := st } := by
  have hle := le_ALIGN (dest % f.align + len) (show 0 < f.align by omega)
  have hmod := Nat.mod_le dest f.align
  have hlen := memcpy_memset_length (ALIGN (dest % f.align + len) f.align) f.erased
    (dest % f.align) src len (by omega) hle
  refine ⟨rfl, rfl, ?_, ?_, hlen, ⟨len, hl, le_refl _, rfl⟩, ?_⟩
  · exact Nat.mod_eq_zero_of_dvd (Nat.dvd_sub_mod dest)
  · exact Nat.mod_eq_zero_of_dvd (ALIGN_dvd _ _)
  · intro i hi ho
    simp only at hi ho ⊢
    rw [hlen] at hi
    exact memcpy_memset_pad _ _ _ _ _ (by omega) i hi (by omega)

theorem write_loop_aligned {σ : Type} (t : target σ) (dest : Nat) {f : target_flash σ}
    (hf : flash_for_addr t dest = some f) (hA : 1 < f.align) :
    ∀ (fuel : Nat) (s : σ) (src : List Nat) (len : Nat) (ret : Int)
      (calls : List (flash_call σ)), len ≤ fuel → src.length = len →
      ∃ r new, target_flash_write_loop t dest fuel s src len ret calls = .ok r ∧
        r.calls = calls ++ new ∧ (∀ c ∈ new, padded_call f dest len c) ∧
        (0 < len → ∃ c rest, new = c :: rest ∧
          c.len = ALIGN (dest % f.align + len) f.align ∧
          ∀ i, i < len → c.data[dest % f.align + i]? = src[i]?) := by
  have hpos := flash_for_addr_length_pos hf
  have hmod : dest % f.length < f.length := Nat.mod_lt _ hpos
  intro fuel
  induction fuel with
  | zero =>
    intro s src len ret calls hl _
    have : len = 0 := by omega
    subst this
    exact ⟨{ ret := ret, st := s, calls := calls }, [],
      by simp [target_flash_write_loop], by simp, by simp, by simp⟩
  | succ fuel ih =>
    intro s src len ret calls hl hs
    by_cases h0 : len = 0
    · subst h0
      exact ⟨{ ret := ret, st := s, calls := calls }, [],
        by simp [target_flash_write_loop], by simp, by simp, by simp⟩
    · have htl : 0 < MIN len (f.length - dest % f.length) :=
        MIN_pos (Nat.pos_of_ne_zero h0) (by omega)
      have htle := MIN_le_left len (f.length - dest % f.length)
      rw [target_flash_write_loop]
      simp only [h0, if_false, hf, Nat.ne_of_gt hpos, hA, if_true]
      obtain ⟨r, new, hr, hc, hp, _⟩ := ih
        (f.write (dest - dest % f.align)
          (memcpy (memset (ALIGN (dest % f.align + len) f.align) f.erased)
            (dest % f.align) src len) s).2
        (src.drop (MIN len (f.length - dest % f.length)))
        (len - MIN len (f.length - dest % f.length))
        (Int.lor ret (f.write (dest - dest % f.align)
          (memcpy (memset (ALIGN (dest % f.align + len) f.align) f.erased)
            (dest % f.align) src len) s).1)
        (calls ++ [{ f := f, addr := dest - dest % f.align,
                     len := ALIGN (dest % f.align + len) f.align,
                     data := memcpy (memset (ALIGN (dest % f.align + len) f.align) f.erased)
                       (dest % f.align) src len,
                     status := (f.write (dest - dest % f.align)
                       (memcpy (memset (ALIGN (dest % f.align + len) f.align) f.erased)
                         (dest % f.align) src len) s).1 }])
        (by omega) (by simp; omega)
      refine ⟨r, _, hr, by rw [hc, List.append_assoc], ?_, ?_⟩
      · intro c hc
        simp only [List.singleton_append, List.mem_cons] at hc
        rcases hc with rfl | hc
        · exact padded_call_first f hA dest src len (Nat.pos_of_ne_zero h0) hs _
        · exact padded_call_mono (hp c hc) (Nat.sub_le _ _)
      · intro _
        refine ⟨_, new, rfl, rfl, ?_⟩
        intro i hi
        exact memcpy_memset_data _ _ _ _ _ (by omega)
          (le_ALIGN (dest % f.align + len) (show 0 < f.align by omega)) i hi

theorem write_buffered_loop_unfold {σ : Type} (fuel : Nat) (f : target_flash σ) (s : σ)
    (dest : Nat) (src : List Nat) (len : Nat) (ret : Int) (calls : List (flash_call σ))
    (b : List Nat) (h0 : len ≠ 0) (hbs : f.buf_size ≠ 0) (hb : f.buf = some b) :
    ∃ ret2, target_flash_write_buffered_loop (fuel + 1) f s dest src len ret calls
      = target_flash_write_buffered_loop fuel
          (chunk_step ⟨f, s, calls⟩ dest src (MIN (f.buf_size - dest % f.buf_size) len)).f
          (chunk_step ⟨f, s, calls⟩ dest src (MIN (f.buf_size - dest % f.buf_size) len)).st
          ((dest + MIN (f.buf_size - dest % f.buf_size) len) % 2 ^ 32)
          (src.drop (MIN (f.buf_size - dest % f.buf_size) len))
          (len - MIN (f.buf_size - dest % f.buf_size) len) ret2
          (chunk_step ⟨f, s, calls⟩ dest src (MIN (f.buf_size - dest % f.buf_size) len)).calls := by
  rw [target_flash_write_buffered_loop]
  simp only [h0, if_false, hbs, hb]
  unfold chunk_step
  simp only [sector_base, hb, Option.getD_some]
  by_cases h1 : dest - dest % f.buf_size = f.buf_addr
  · simp only [h1, ne_eq, not_true_eq_false, if_false]
    exact ⟨_, rfl⟩
  · by_cases h2 : f.buf_addr = NO_SECTOR
    · simp only [h1, ne_eq, not_false_eq_true, if_true]
      simp only [h2, not_true_eq_false, if_false]
      exact ⟨_, rfl⟩
    · simp only [h1, h2, ne_eq, not_false_eq_true, if_true]
      exact ⟨_, rfl⟩

theorem write_buffered_eq_loop {σ : Type} (junk : Nat → Nat) (f : target_flash σ) (s : σ)
    (dest : Nat) (src : List Nat) (len : Nat) :
    target_flash_write_buffered junk f s dest src len
      = target_flash_write_buffered_loop len (session_start junk f) s dest src len 0 [] := by
  unfold target_flash_write_buffered session_start
  cases f.buf <;> rfl

theorem done_buffered_calls {σ : Type} (f : target_flash σ) (s : σ) :
    (∀ b, f.buf = some b → f.buf_addr ≠ NO_SECTOR →
      ∃ c, (target_flash_done_buffered f s).calls = [c] ∧ c.f = f ∧ c.addr = f.buf_addr ∧
        c.len = f.buf_size ∧ c.data = b ∧
        c.status = (f.write_buf f.buf_addr b s).1 ∧
        (target_flash_done_buffered f s).ret = (f.write_buf f.buf_addr b s).1 ∧
        (target_flash_done_buffered f s).st = (f.write_buf f.buf_addr b s).2 ∧
        (target_flash_done_buffered f s).f.buf = none ∧
        (target_flash_done_buffered f s).f.buf_addr = NO_SECTOR) ∧
    ((f.buf = none ∨ f.buf_addr = NO_SECTOR) →
      (target_flash_done_buffered f s).calls = [] ∧ (target_flash_done_buffered f s).ret = 0 ∧
      (target_flash_done_buffered f s).f = f ∧ (target_flash_done_buffered f s).st = s) := by
  constructor
  · intro b hb hne
    unfold target_flash_done_buffered
    simp only [hb, hne, ne_eq, not_false_eq_true, if_true]
    refine ⟨_, rfl, ?_, ?_, ?_, ?_, ?_, ?_, ?_, ?_, ?_⟩ <;> trivial
  · intro h
    unfold target_flash_done_buffered
    rcases h with h | h
    · simp only [h]
      refine ⟨?_, ?_, ?_, ?_⟩ <;> trivial
    · cases hb : f.buf with
      | none => refine ⟨?_, ?_, ?_, ?_⟩ <;> trivial
      | some b =>
        simp only [h, ne_eq, not_true_eq_false, if_false]
        refine ⟨?_, ?_, ?_, ?_⟩ <;> trivial

theorem erase_loop_fuel {σ : Type} (t : target σ) :
    ∀ (fuel : Nat) (s : σ) (addr len : Nat) (ret : Int) (calls : List (flash_call σ)),
      len ≤ fuel →
      target_flash_erase_loop t fuel s addr len ret calls ≠ .error .out_of_fuel := by
  intro fuel
  induction fuel with
  | zero =>
    intro s addr len ret calls hl
    have : len = 0 := by omega
    subst this
    simp [target_flash_erase_loop]
  | succ fuel ih =>
    intro s addr len ret calls hl
    rw [target_flash_erase_loop]
    by_cases h0 : len = 0
    · simp [h0]
    · simp only [h0, if_false]
      cases hf : flash_for_addr t addr with
      | none => simp
      | some f =>
        simp only []
        by_cases hz : f.length = 0
        · simp [hz]
        · simp only [hz, if_false]
          have hmod : addr % f.length < f.length := Nat.mod_lt _ (Nat.pos_of_ne_zero hz)
          have := MIN_pos (Nat.pos_of_ne_zero h0) (show 0 < f.length - addr % f.length by omega)
          exact ih _ _ _ _ _ (by omega)

theorem write_loop_fuel {σ : Type} (t : target σ) (dest : Nat) :
    ∀ (fuel : Nat) (s : σ) (src : List Nat) (len : Nat) (ret : Int)
      (calls : List (flash_call σ)), len ≤ fuel →
      target_flash_write_loop t dest fuel s src len ret calls ≠ .error .out_of_fuel := by
  intro fuel
  induction fuel with
  | zero =>
    intro s src len ret calls hl
    have : len = 0 := by omega
    subst this
    simp [target_flash_write_loop]
  | succ fuel ih =>
    intro s src len ret calls hl
    rw [target_flash_write_loop]
    by_cases h0 : len = 0
    · simp [h0]
    · simp only [h0, if_false]
      cases hf : flash_for_addr t dest with
      | none => simp
      | some f =>
        simp only []
        by_cases hz : f.length = 0
        · simp [hz]
        · simp only [hz, if_false]
          have hmod : dest % f.length < f.length := Nat.mod_lt _ (Nat.pos_of_ne_zero hz)
          have := MIN_pos (Nat.pos_of_ne_zero h0) (show 0 < f.length - dest % f.length by omega)
          by_cases hal : 1 < f.align
          · simp only [hal, if_true]
            exact ih _ _ _ _ _ (by omega)
          · simp only [hal, if_false]
            exact ih _ _ _ _ _ (by omega)

theorem write_buffered_loop_fuel {σ : Type} :
    ∀ (fuel : Nat) (f : target_flash σ) (s : σ) (dest : Nat) (src : List Nat) (len : Nat)
      (ret : Int) (calls : List (flash_call σ)), len ≤ fuel →
      target_flash_write_buffered_loop fuel f s dest src len ret calls
        ≠ .error .out_of_fuel := by
  intro fuel
  induction fuel with
  | zero =>
    intro f s dest src len ret calls hl
    have : len = 0 := by omega
    subst this
    simp [target_flash_write_buffered_loop]
  | succ fuel ih =>
    intro f s dest src len ret calls hl
    by_cases h0 : len = 0
    · simp [target_flash_write_buffered_loop, h0]
    · by_cases hz : f.buf_size = 0
      · simp [target_flash_write_buffered_loop, h0, hz]
      · cases hb : f.buf with
        | none => simp [target_flash_write_buffered_loop, h0, hz, hb]
        | some b =>
          obtain ⟨ret2, hu⟩ := write_buffered_loop_unfold fuel f s dest src len ret calls b
            h0 hz hb
          rw [hu]
          have hmod : dest % f.buf_size < f.buf_size := Nat.mod_lt _ (Nat.pos_of_ne_zero hz)
          have := MIN_pos (show 0 < f.buf_size - dest % f.buf_size by omega)
            (Nat.pos_of_ne_zero h0)
          exact ih _ _ _ _ _ _ _ (by omega)

theorem flash_loops_terminate {σ : Type} (t : target σ) (f : target_flash σ) (s : σ)
    (junk : Nat → Nat) (addr : Nat) (src : List Nat) (len : Nat) :
    target_flash_erase t s addr len ≠ .error .out_of_fuel ∧
    target_flash_write t s addr src len ≠ .error .out_of_fuel ∧
    target_flash_write_buffered junk f s addr src len ≠ .error .out_of_fuel := by
  refine ⟨erase_loop_fuel t len s addr len 0 [] (le_refl _),
    write_loop_fuel t addr len s src len 0 [] (le_refl _), ?_⟩
  rw [write_buffered_eq_loop]
  exact write_buffered_loop_fuel len _ s addr src len 0 [] (le_refl _)

theorem all_mapped_no_wrap {σ : Type} {t : target σ} {addr len : Nat} (ha : addr < 2 ^ 32)
    (h : all_mapped t addr len) : addr + len < 2 ^ 32 := by
  by_contra hc
  have hi := h (2 ^ 32 - 1 - addr) (by omega)
  have e : (addr + (2 ^ 32 - 1 - addr)) % 2 ^ 32 = 2 ^ 32 - 1 := by omega
  rw [e] at hi
  obtain ⟨f, hf⟩ := Option.isSome_iff_exists.mp hi
  obtain ⟨_, _, h2⟩ := flash_for_addr_some hf
  have := Nat.mod_lt (f.start + f.length) (show 0 < 2 ^ 32 by norm_num)
  omega

theorem erase_loop_chain {σ : Type} (t : target σ) :
    ∀ (fuel : Nat) (s : σ) (addr len : Nat) (ret : Int) (calls : List (flash_call σ)),
      len ≤ fuel → addr < 2 ^ 32 → all_mapped t addr len →
      ∃ r new, target_flash_erase_loop t fuel s addr len ret calls = .ok r ∧
        r.calls = calls ++ new ∧ erase_chain t addr new ∧
        (new.map (fun c => c.len)).sum = len ∧ new.length ≤ len := by
  intro fuel
  induction fuel with
  | zero =>
    intro s addr len ret calls hl _ _
    have : len = 0 := by omega
    subst this
    exact ⟨{ ret := ret, st := s, calls := calls }, [],
      by simp [target_flash_erase_loop], by simp, trivial, rfl, le_refl _⟩
  | succ fuel ih =>
    intro s addr len ret calls hl ha hm
    by_cases h0 : len = 0
    · subst h0
      exact ⟨{ ret := ret, st := s, calls := calls }, [],
        by simp [target_flash_erase_loop], by simp, trivial, rfl, le_refl _⟩
    · obtain ⟨f, hf⟩ := all_mapped_head ha (Nat.pos_of_ne_zero h0) hm
      have hpos := flash_for_addr_length_pos hf
      have hmod : addr % f.length < f.length := Nat.mod_lt _ hpos
      have htl : 0 < MIN len (f.length - addr % f.length) :=
        MIN_pos (Nat.pos_of_ne_zero h0) (by omega)
      have htle := MIN_le_left len (f.length - addr % f.length)
      have hnw := all_mapped_no_wrap ha hm
      generalize hn : MIN len (f.length - addr % f.length) = n at htl htle
      have hstep : target_flash_erase_loop t (fuel + 1) s addr len ret calls
          = target_flash_erase_loop t fuel (f.erase addr n s).2 ((addr + n) % 2 ^ 32) (len - n)
              (Int.lor ret (f.erase addr n s).1)
              (calls ++ [{ f := f, addr := addr, len := n, data := [],
                           status := (f.erase addr n s).1 }]) := by
        rw [target_flash_erase_loop]
        simp only [h0, if_false, hf, Nat.ne_of_gt hpos, hn]
      obtain ⟨r, new, hr, hc, hch, hsum, hlen⟩ := ih (f.erase addr n s).2
        ((addr + n) % 2 ^ 32) (len - n) (Int.lor ret (f.erase addr n s).1)
        (calls ++ [{ f := f, addr := addr, len := n, data := [],
                     status := (f.erase addr n s).1 }])
        (by omega) (Nat.mod_lt _ (by norm_num)) (all_mapped_tail hm)
      rw [Nat.mod_eq_of_lt (by omega)] at hch
      refine ⟨r, { f := f, addr := addr, len := n, data := [],
                   status := (f.erase addr n s).1 } :: new, ?_, ?_, ?_, ?_, ?_⟩
      · rw [hstep]; exact hr
      · rw [hc]; simp
      · exact ⟨rfl, htl, hf, hch⟩
      · simp only [List.map_cons, List.sum_cons, hsum]; omega
      · simp only [List.length_cons]; omega

theorem replay_calls_cons_eq {σ : Type} (cap : flash_call σ → σ → Int × σ) (c : flash_call σ)
    (cs : List (flash_call σ)) (s s2 : σ) (h1 : c.status = (cap c s).1)
    (h2 : replay_calls cap cs (cap c s).2 = (cs.map (fun x => x.status), s2)) :
    replay_calls cap (c :: cs) s = ((c :: cs).map (fun x => x.status), s2) := by
  simp only [replay_calls, h2, List.map_cons, h1]

theorem erase_loop_replay {σ : Type} (t : target σ) :
    ∀ (fuel : Nat) (s : σ) (addr len : Nat) (ret : Int) (calls : List (flash_call σ))
      (r : flash_result σ),
      target_flash_erase_loop t fuel s addr len ret calls = .ok r →
      ∃ new, r.calls = calls ++ new ∧
        replay_calls erase_cap new s = (new.map (fun x => x.status), r.st) := by
  intro fuel
  induction fuel with
  | zero =>
    intro s addr len ret calls r h
    rw [target_flash_erase_loop] at h
    by_cases h0 : len = 0
    · simp only [h0, if_true, Except.ok.injEq] at h
      subst h
      exact ⟨[], by simp, rfl⟩
    · simp [h0] at h
  | succ fuel ih =>
    intro s addr len ret calls r h
    rw [target_flash_erase_loop] at h
    by_cases h0 : len = 0
    · simp only [h0, if_true, Except.ok.injEq] at h
      subst h
      exact ⟨[], by simp, rfl⟩
    · simp only [h0, if_false] at h
      cases hf : flash_for_addr t addr with
      | none => simp [hf] at h
      | some f =>
        simp only [hf] at h
        by_cases hz : f.length = 0
        · simp [hz] at h
        · simp only [hz, if_false] at h
          obtain ⟨new, hc, hr⟩ := ih _ _ _ _ _ r h
          refine ⟨_ :: new, by rw [hc, List.append_assoc]; rfl, ?_⟩
          exact replay_calls_cons_eq erase_cap _ new s r.st rfl hr

theorem write_loop_replay {σ : Type} (t : target σ) (dest : Nat) :
    ∀ (fuel : Nat) (s : σ) (src : List Nat) (len : Nat) (ret : Int)
      (calls : List (flash_call σ)) (r : flash_result σ),
      target_flash_write_loop t dest fuel s src len ret calls = .ok r →
      ∃ new, r.calls = calls ++ new ∧
        replay_calls write_cap new s = (new.map (fun x => x.status), r.st) := by
  intro fuel
  induction fuel with
  | zero =>
    intro s src len ret calls r h
    rw [target_flash_write_loop] at h
    by_cases h0 : len = 0
    · simp only [h0, if_true, Except.ok.injEq] at h
      subst h
      exact ⟨[], by simp, rfl⟩
    · simp [h0] at h
  | succ fuel ih =>
    intro s src len ret calls r h
    rw [target_flash_write_loop] at h
    by_cases h0 : len = 0
    · simp only [h0, if_true, Except.ok.injEq] at h
      subst h
      exact ⟨[], by simp, rfl⟩
    · simp only [h0, if_false] at h
      cases hf : flash_for_addr t dest with
      | none => simp [hf] at h
      | some f =>
        simp only [hf] at h
        by_cases hz : f.length = 0
        · simp [hz] at h
        · simp only [hz, if_false] at h
          by_cases hal : 1 < f.align
          · simp only [hal, if_true] at h
            obtain ⟨new, hc, hr⟩ := ih _ _ _ _ _ r h
            refine ⟨_ :: new, by rw [hc, List.append_assoc]; rfl, ?_⟩
            exact replay_calls_cons_eq write_cap _ new s r.st rfl hr
          · simp only [hal, if_false] at h
            obtain ⟨new, hc, hr⟩ := ih _ _ _ _ _ r h
            refine ⟨_ :: new, by rw [hc, List.append_assoc]; rfl, ?_⟩
            exact replay_calls_cons_eq write_cap _ new s r.st rfl hr

theorem write_plan_zero {σ : Type} (f : target_flash σ) (dest : Nat) (src : List Nat)
    (hk : 0 < f.length - dest % f.length) : write_plan f dest src 0 = [] := by
  unfold write_plan
  rw [Nat.zero_add, Nat.div_eq_of_lt (by omega)]
  rfl

theorem write_plan_step {σ : Type} (f : target_flash σ) (dest : Nat) (src : List Nat)
    (len : Nat) (hl : 0 < len) (hk : 0 < f.length - dest % f.length) :
    write_plan f dest src len
      = write_key f dest src len
        :: write_plan f dest (src.drop (MIN len (f.length - dest % f.length)))
            (len - MIN len (f.length - dest % f.length)) := by
  unfold write_plan
  generalize f.length - dest % f.length = k at hk
  by_cases hle : len ≤ k
  · have hmin : MIN len k = len := by unfold MIN; split <;> omega
    have h1 : (len + k - 1) / k = 1 := Nat.div_eq_of_lt_le (by omega) (by omega)
    have h0 : (len - len + k - 1) / k = 0 := Nat.div_eq_of_lt (by omega)
    rw [hmin, h1, h0]
    simp [List.range_succ]
  · have hmin : MIN len k = k := by unfold MIN; split <;> omega
    have h1 : (len + k - 1) / k = (len - k + k - 1) / k + 1 := by
      have e : len + k - 1 = (len - k + k - 1) + k := by omega
      rw [e, Nat.add_div_right _ hk]
    rw [hmin, h1, List.range_succ_eq_map, List.map_cons, List.map_map]
    congr 1
    · simp
    · apply List.map_congr_left
      intro j _
      simp only [Function.comp, List.drop_drop]
      have e1 : k + j * k = (j + 1) * k := by rw [Nat.succ_mul]; omega
      have e2 : len - k - j * k = len - (j + 1) * k := by rw [Nat.succ_mul]; omega
      rw [e1, e2]

theorem write_loop_plan {σ : Type} (t : target σ) (dest : Nat) {f : target_flash σ}
    (hf : flash_for_addr t dest = some f) :
    ∀ (fuel : Nat) (s : σ) (src : List Nat) (len : Nat) (ret : Int)
      (calls : List (flash_call σ)), len ≤ fuel →
      ∃ r new, target_flash_write_loop t dest fuel s src len ret calls = .ok r ∧
        r.calls = calls ++ new ∧ new.map flash_call.key = write_plan f dest src len := by
  have hpos := flash_for_addr_length_pos hf
  have hmod : dest % f.length < f.length := Nat.mod_lt _ hpos
  have hk : 0 < f.length - dest % f.length := by omega
  intro fuel
  induction fuel with
  | zero =>
    intro s src len ret calls hl
    have : len = 0 := by omega
    subst this
    exact ⟨{ ret := ret, st := s, calls := calls }, [],
      by simp [target_flash_write_loop], by simp, by rw [write_plan_zero f dest src hk]; rfl⟩
  | succ fuel ih =>
    intro s src len ret calls hl
    by_cases h0 : len = 0
    · subst h0
      exact ⟨{ ret := ret, st := s, calls := calls }, [],
        by simp [target_flash_write_loop], by simp, by rw [write_plan_zero f dest src hk]; rfl⟩
    · have htl : 0 < MIN len (f.length - dest % f.length) :=
        MIN_pos (Nat.pos_of_ne_zero h0) hk
      rw [target_flash_write_loop, write_plan_step f dest src len (Nat.pos_of_ne_zero h0) hk]
      simp only [h0, if_false, hf, Nat.ne_of_gt hpos]
      by_cases hal : 1 < f.align
      · simp only [hal, if_true]
        obtain ⟨r, new, hr, hc, hp⟩ := ih
          (f.write (dest - dest % f.align)
            (memcpy (memset (ALIGN (dest % f.align + len) f.align) f.erased)
              (dest % f.align) src len) s).2
          (src.drop (MIN len (f.length - dest % f.length)))
          (len - MIN len (f.length - dest % f.length))
          (Int.lor ret (f.write (dest - dest % f.align)
            (memcpy (memset (ALIGN (dest % f.align + len) f.align) f.erased)
              (dest % f.align) src len) s).1)
          (calls ++ [{ f := f, addr := dest - dest % f.align,
                       len := ALIGN (dest % f.align + len) f.align,
                       data := memcpy (memset (ALIGN (dest % f.align + len) f.align) f.erased)
                         (dest % f.align) src len,
                       status := (f.write (dest - dest % f.align)
                         (memcpy (memset (ALIGN (dest % f.align + len) f.align) f.erased)
                           (dest % f.align) src len) s).1 }])
          (by omega)
        refine ⟨r, _, hr, by rw [hc, List.append_assoc], ?_⟩
        simp only [List.singleton_append, List.map_cons, hp, write_key, hal, if_true,
          flash_call.key]
      · simp only [hal, if_false]
        obtain ⟨r, new, hr, hc, hp⟩ := ih
          (f.write dest (src.take (MIN len (f.length - dest % f.length))) s).2
          (src.drop (MIN len (f.length - dest % f.length)))
          (len - MIN len (f.length - dest % f.length))
          (Int.lor ret (f.write dest (src.take (MIN len (f.length - dest % f.length))) s).1)
          (calls ++ [{ f := f, addr := dest, len := MIN len (f.length - dest % f.length),
                       data := src.take (MIN len (f.length - dest % f.length)),
                       status := (f.write dest
                         (src.take (MIN len (f.length - dest % f.length))) s).1 }])
          (by omega)
        refine ⟨r, _, hr, by rw [hc, List.append_assoc], ?_⟩
        simp only [List.singleton_append, List.map_cons, hp, write_key, hal, if_false,
          flash_call.key]

theorem erase_loop_steps {σ : Type} (t : target σ) :
    ∀ (fuel : Nat) (s : σ) (addr len : Nat) (ret : Int) (calls : List (flash_call σ))
      (r : flash_result σ),
      target_flash_erase_loop t fuel s addr len ret calls = .ok r →
      addr < 2 ^ 32 → all_mapped t addr len →
      ∃ new, r.calls = calls ++ new ∧ erase_steps t addr len new := by
  intro fuel
  induction fuel with
  | zero =>
    intro s addr len ret calls r h _ _
    rw [target_flash_erase_loop] at h
    by_cases h0 : len = 0
    · simp only [h0, if_true, Except.ok.injEq] at h
      subst h
      exact ⟨[], by simp, h0⟩
    · simp [h0] at h
  | succ fuel ih =>
    intro s addr len ret calls r h ha hm
    rw [target_flash_erase_loop] at h
    by_cases h0 : len = 0
    · simp only [h0, if_true, Except.ok.injEq] at h
      subst h
      exact ⟨[], by simp, h0⟩
    · simp only [h0, if_false] at h
      cases hf : flash_for_addr t addr with
      | none => simp [hf] at h
      | some f =>
        simp only [hf] at h
        by_cases hz : f.length = 0
        · simp [hz] at h
        · simp only [hz, if_false] at h
          have htle := MIN_le_left len (f.length - addr % f.length)
          have hnw := all_mapped_no_wrap ha hm
          obtain ⟨new, hc, hst⟩ := ih _ _ _ _ _ r h (Nat.mod_lt _ (by norm_num))
            (all_mapped_tail hm)
          rw [Nat.mod_eq_of_lt (by omega)] at hst
          refine ⟨_ :: new, by rw [hc, List.append_assoc]; rfl, ?_⟩
          exact ⟨Nat.pos_of_ne_zero h0, rfl, hf, rfl, rfl, hst⟩

/-- C1 (fails on the code): `target_flash_erase` on the two adjacent,
non-overlapping regions `[1, 3)` and `[3, 7)`, asked to erase the fully mapped
range `[2, 4)`, makes a single call to the erase capability of the first region
for the range `[2, 4)`, which runs past that region's end 3: the chunk length
is computed from `addr % length` instead of the offset of `addr` in the region. -/
theorem erase_call_leaves_region :
    flash_disjoint t_odd ∧ all_mapped t_odd 2 2 ∧
    run_keys (target_flash_erase t_odd () 2 2)
      = .ok [{ start := 1, length := 2, addr := 2, len := 2, data := [] }] ∧
    ∃ r, target_flash_erase t_odd () 2 2 = .ok r ∧ ∃ c ∈ r.calls, ¬ call_inside c :=
  ⟨by decide, by decide, by decide, _, rfl, _, List.mem_cons_self _ _, by decide⟩

/-- C2 (fails on the code): on the adjacent regions `[0, 4)` and `[4, 8)` with
alignment 2, `target_flash_write` of 4 bytes at 2 first writes all 4 bytes,
`[2, 6)`, through the first region, whose end is 4 (the padded branch uses the
whole remaining `len`, not the chunk length), and then writes the last two bytes
again at address 2; on the regions `[1, 3)` and `[3, 7)` without alignment a
write of 2 bytes at 2 is passed whole to the first region (the `addr % length`
chunk computation of C1). -/
theorem write_call_leaves_region :
    flash_disjoint t_aligned ∧ all_mapped t_aligned 2 4 ∧
    run_keys (target_flash_write t_aligned () 2 [1, 2, 3, 4] 4)
      = .ok [{ start := 0, length := 4, addr := 2, len := 4, data := [1, 2, 3, 4] },
             { start := 0, length := 4, addr := 2, len := 2, data := [3, 4] }] ∧
    (∃ r, target_flash_write t_aligned () 2 [1, 2, 3, 4] 4 = .ok r ∧
      ∃ c ∈ r.calls, ¬ call_inside c) ∧
    flash_disjoint t_odd ∧ all_mapped t_odd 2 2 ∧
    run_keys (target_flash_write t_odd () 2 [1, 2] 2)
      = .ok [{ start := 1, length := 2, addr := 2, len := 2, data := [1, 2] }] ∧
    (∃ r, target_flash_write t_odd () 2 [1, 2] 2 = .ok r ∧
      ∃ c ∈ r.calls, ¬ call_inside c) :=
  ⟨by decide, by decide, by decide, ⟨_, rfl, _, List.mem_cons_self _ _, by decide⟩,
   by decide, by decide, by decide, ⟨_, rfl, _, List.mem_cons_self _ _, by decide⟩⟩

/-- C3 (fails on the code): on a simulated flash with the single region
`[1, 5)` (alignment 1, erased value 255), erasing `[2, 5)` and then writing the
bytes 10, 20, 30 at 2 leaves 30, 20, 255 in `[2, 5)`: the write is split in two
chunks and the second chunk is written at the unchanged `dest`. -/
theorem round_trip_fails :
    sim_round_trip { flash := [sim_flash 1 4 1 255] } (fun _ => 0) 2 [10, 20, 30]
      = .ok [30, 20, 255] := by
  decide

/-- A write of `len > 0` bytes at a `dest` owned by a region `f` with alignment
`A > 1` returns, and every write it issues goes to `f`, starts at
`dest - dest % A`, has the length `ALIGN (dest % A + rem) A` for the length
`rem` still to be written at that pass, and carries the erased value of `f` in
every byte outside `[dest, dest + len)`; the first write has the length
`ALIGN (dest % A + len) A` and carries the caller's bytes from offset
`dest % A` on. -/
theorem write_padding {σ : Type} (t : target σ) (s : σ) (dest : Nat) (src : List Nat)
    (len : Nat) (f : target_flash σ) (hf : flash_for_addr t dest = some f)
    (hA : 1 < f.align) (hl : 0 < len) (hs : src.length = len) :
    ∃ r c rest, target_flash_write t s dest src len = .ok r ∧ r.calls = c :: rest ∧
      c.len = ALIGN (dest % f.align + len) f.align ∧
      (∀ i, i < len → c.data[dest % f.align + i]? = src[i]?) ∧
      ∀ x ∈ r.calls, x.f = f ∧ x.addr = dest - dest % f.align ∧ x.addr % f.align = 0 ∧
        x.len % f.align = 0 ∧ x.data.length = x.len ∧
        (∃ rem, 0 < rem ∧ rem ≤ len ∧ x.len = ALIGN (dest % f.align + rem) f.align) ∧
        ∀ i, i < x.data.length → (x.addr + i < dest ∨ dest + len ≤ x.addr + i) →
          x.data[i]? = some f.erased := by
  obtain ⟨r, new, hr, hc, hp, hfirst⟩ :=
    write_loop_aligned t dest hf hA len s src len 0 [] (le_refl _) hs
  obtain ⟨c, rest, e1, e2, e3⟩ := hfirst hl
  refine ⟨r, c, rest, hr, by rw [hc, e1]; rfl, e2, e3, ?_⟩
  intro x hx
  rw [hc, List.nil_append] at hx
  exact hp x hx

/-- C4 (fails on the code): the region `[2, 6)` has alignment 2 and the write
of the 4 bytes 1, 2, 3, 4 at 2 lies wholly inside it, so one write of
`ALIGN (2 % 2 + 4) 2 = 4` bytes is due; `target_flash_write` issues that write
and then a second one, of 2 bytes, that puts the bytes 3, 4 at address 2 again:
the chunk length is taken from `dest % f->length` and not from the distance to
the end of the region, the aligned branch writes the whole of `len` but `len`
is reduced by the chunk only, and `dest` is not advanced. -/
theorem aligned_write_repeats :
    t_offset.flash.map region_layout = [(2, 4, 2, 255)] ∧
    all_mapped t_offset 2 4 ∧
    ALIGN (2 % 2 + 4) 2 = 4 ∧
    run_keys (target_flash_write t_offset () 2 [1, 2, 3, 4] 4)
      = .ok [{ start := 2, length := 4, addr := 2, len := 4, data := [1, 2, 3, 4] },
             { start := 2, length := 4, addr := 2, len := 2, data := [3, 4] }] := by
  decide

/-- C5: for a request `(addr, len)` all of whose bytes are mapped,
`target_flash_erase` and `target_flash_write` return, and whatever statuses the
drivers return: the value returned is 0 exactly when every capability call
returned 0, where the status of each call is what the capability of its region
returned on the driver state the earlier calls left; the erase calls are the
whole chain of non-empty chunks from `addr` on, with lengths that add up to
`len`, each chunk as long as `erase_steps` says; the write calls are the whole plan `write_plan`, one for every
`f.length - addr % f.length` bytes of the request; and the calls made (region,
address, length, data) are the same on any target `u` with the same region
layout, whatever its drivers return and whatever the driver state is. -/
theorem flash_status_accumulates {σ τ : Type} (t : target σ) (u : target τ) (s : σ) (s2 : τ)
    (addr : Nat) (src : List Nat) (len : Nat) (ha : addr < 2 ^ 32)
    (hm : all_mapped t addr len) (hu : same_layout t u) :
    (∃ r, target_flash_erase t s addr len = .ok r ∧
      (r.ret = 0 ↔ ∀ c ∈ r.calls, c.status = 0) ∧
      replay_calls erase_cap r.calls s = (r.calls.map (fun c => c.status), r.st) ∧
      erase_chain t addr r.calls ∧ (r.calls.map (fun c => c.len)).sum = len ∧
      erase_steps t addr len r.calls) ∧
    (∃ r, target_flash_write t s addr src len = .ok r ∧
      (r.ret = 0 ↔ ∀ c ∈ r.calls, c.status = 0) ∧
      replay_calls write_cap r.calls s = (r.calls.map (fun c => c.status), r.st) ∧
      (len = 0 → r.calls = []) ∧
      ∀ f, flash_for_addr t addr = some f →
        r.calls.map flash_call.key = write_plan f addr src len ∧
        r.calls.length = (len + (f.length - addr % f.length) - 1)
          / (f.length - addr % f.length)) ∧
    run_keys (target_flash_erase t s addr len) = run_keys (target_flash_erase u s2 addr len) ∧
    run_keys (target_flash_write t s addr src len)
      = run_keys (target_flash_write u s2 addr src len) := by
  refine ⟨?_, ?_, ?_, ?_⟩
  · obtain ⟨r, new, hr, hc, hz⟩ := erase_loop_ok t len s addr len 0 [] (le_refl _) ha hm
    obtain ⟨r2, new2, hr2, hc2, hch, hsum, _⟩ :=
      erase_loop_chain t len s addr len 0 [] (le_refl _) ha hm
    obtain ⟨new3, hc3, hrep⟩ := erase_loop_replay t len s addr len 0 [] r hr
    obtain ⟨new4, hc4, hst⟩ := erase_loop_steps t len s addr len 0 [] r hr ha hm
    have e : r2 = r := by
      have := hr2.symm.trans hr
      exact Except.ok.inj this
    subst e
    rw [List.nil_append] at hc hc2 hc3 hc4
    refine ⟨r2, hr, ?_, ?_, ?_, ?_, ?_⟩
    · rw [hz, hc]; simp
    · rw [hc3]; exact hrep
    · rw [hc2]; exact hch
    · rw [hc2]; exact hsum
    · rw [hc4]; exact hst
  · by_cases h0 : len = 0
    · subst h0
      refine ⟨{ ret := 0, st := s, calls := [] }, ?_, by simp, rfl, fun _ => rfl, ?_⟩
      · simp [target_flash_write, target_flash_write_loop]
      · intro f hf
        have hpos := flash_for_addr_length_pos hf
        have hmod : addr % f.length < f.length := Nat.mod_lt _ hpos
        rw [write_plan_zero f addr src (by omega), Nat.zero_add,
          Nat.div_eq_of_lt (by omega)]
        exact ⟨rfl, rfl⟩
    · obtain ⟨f, hf⟩ := all_mapped_head ha (Nat.pos_of_ne_zero h0) hm
      obtain ⟨r, new, hr, hc, hz⟩ := write_loop_ok t addr hf len s src len 0 [] (le_refl _)
      obtain ⟨r2, new2, hr2, hc2, hp⟩ := write_loop_plan t addr hf len s src len 0 [] (le_refl _)
      obtain ⟨new3, hc3, hrep⟩ := write_loop_replay t addr len s src len 0 [] r hr
      have e : r2 = r := by
        have := hr2.symm.trans hr
        exact Except.ok.inj this
      subst e
      rw [List.nil_append] at hc hc2 hc3
      refine ⟨r2, hr, ?_, ?_, fun h => absurd h h0, ?_⟩
      · rw [hz, hc]; simp
      · rw [hc3]; exact hrep
      · intro g hg
        have e : g = f := Option.some.inj (hg.symm.trans hf)
        subst e
        rw [hc2]
        refine ⟨hp, ?_⟩
        have := congrArg List.length hp
        rw [List.length_map] at this
        rw [this]
        simp [write_plan]
  · exact erase_loop_same_layout hu len s s2 addr len 0 0 [] [] rfl
  · exact write_loop_same_layout hu addr len s s2 src len 0 0 [] [] rfl

/-- C5 at a concrete input: the driver of the first of two regions fails with
status 1; the erase of `[2, 6)` still makes both calls, the second one to the
other region, and returns 1; the write of 4 bytes at 2 still makes both of its
calls and returns 1. -/
theorem flash_status_accumulates_witness :
    (2 < 2 ^ 32 ∧ all_mapped t_failing 2 4 ∧ same_layout t_failing t_aligned) ∧
    run_keys (target_flash_erase t_failing () 2 4)
      = .ok [{ start := 0, length := 4, addr := 2, len := 2, data := [] },
             { start := 4, length := 4, addr := 4, len := 2, data := [] }] ∧
    (target_flash_erase t_failing () 2 4).map (fun r => r.calls.map (fun c => c.status))
      = .ok [1, 0] ∧
    (target_flash_erase t_failing () 2 4).map (fun r => r.ret) = .ok 1 ∧
    run_keys (target_flash_write t_failing () 2 [1, 2, 3, 4] 4)
      = .ok [{ start := 0, length := 4, addr := 2, len := 4, data := [1, 2, 3, 4] },
             { start := 0, length := 4, addr := 2, len := 2, data := [3, 4] }] ∧
    (target_flash_write t_failing () 2 [1, 2, 3, 4] 4).map
        (fun r => r.calls.map (fun c => c.status))
      = .ok [1, 1] ∧
    (target_flash_write t_failing () 2 [1, 2, 3, 4] 4).map (fun r => r.ret) = .ok 1 ∧
    write_plan (failing_flash 0 4 2) 2 [1, 2, 3, 4] 4
      = [{ start := 0, length := 4, addr := 2, len := 4, data := [1, 2, 3, 4] },
         { start := 0, length := 4, addr := 2, len := 2, data := [3, 4] }] ∧
    (∃ r, target_flash_erase t_failing () 2 4 = .ok r ∧
      (r.ret = 0 ↔ ∀ c ∈ r.calls, c.status = 0) ∧
      replay_calls erase_cap r.calls () = (r.calls.map (fun c => c.status), r.st) ∧
      erase_chain t_failing 2 r.calls ∧ (r.calls.map (fun c => c.len)).sum = 4 ∧
      erase_steps t_failing 2 4 r.calls) ∧
    (∃ r, target_flash_write t_failing () 2 [1, 2, 3, 4] 4 = .ok r ∧
      (r.ret = 0 ↔ ∀ c ∈ r.calls, c.status = 0) ∧
      replay_calls write_cap r.calls () = (r.calls.map (fun c => c.status), r.st) ∧
      (4 = 0 → r.calls = []) ∧
      ∀ f, flash_for_addr t_failing 2 = some f →
        r.calls.map flash_call.key = write_plan f 2 [1, 2, 3, 4] 4 ∧
        r.calls.length = (4 + (f.length - 2 % f.length) - 1) / (f.length - 2 % f.length)) ∧
    run_keys (target_flash_erase t_failing () 2 4)
      = run_keys (target_flash_erase t_aligned () 2 4) ∧
    run_keys (target_flash_write t_failing () 2 [1, 2, 3, 4] 4)
      = run_keys (target_flash_write t_aligned () 2 [1, 2, 3, 4] 4) :=
  ⟨⟨by decide, by decide, by decide⟩, by decide, by decide, by decide, by decide, by decide,
   by decide, by decide,
   flash_status_accumulates t_failing t_aligned () () 2 [1, 2, 3, 4] 4
     (by decide) (by decide) (by decide)⟩

/-- C6 (fails on the code): with `len > 0` and a current address that no region
claims, `target_flash_erase` and `target_flash_write` use the `NULL` result of
`flash_for_addr` (`f->length`), which is undefined behaviour and not an error
return; this happens at once on a target without regions, and after a first
erase call when the request `[2, 6)` runs past the only region `[0, 4)`. -/
theorem unmapped_address_faults :
    flash_for_addr t_empty 0 = none ∧
    run_keys (target_flash_erase t_empty () 0 1) = .error .null_deref ∧
    run_keys (target_flash_write t_empty () 0 [1] 1) = .error .null_deref ∧
    (flash_for_addr t_single 4).isSome = false ∧
    run_keys (target_flash_erase t_single () 2 4) = .error .null_deref ∧
    (flash_for_addr t_single 6).isSome = false ∧
    run_keys (target_flash_write t_single () 6 [1] 1) = .error .null_deref :=
  ⟨rfl, by decide, by decide, by decide, by decide, by decide, by decide⟩

/-- C9 (fails on the code as stated): after a write of length 0 on a region
with no open buffer the buffer is allocated and no sector is pending; after a
write of one byte at 0xFFFFFFFF on a region with one-byte sectors the same
holds; in both states `target_flash_done_buffered` makes no call and leaves the
buffer allocated. -/
theorem done_buffered_keeps_idle_buffer :
    (f_buf.buf = none ∧
      ∃ r, target_flash_write_buffered (fun _ => 0) f_buf () 0 [] 0 = .ok r ∧
        r.f.buf = some [0, 0, 0, 0] ∧ r.f.buf_addr = NO_SECTOR ∧
        (target_flash_done_buffered r.f r.st).calls.length = 0 ∧
        (target_flash_done_buffered r.f r.st).f.buf = some [0, 0, 0, 0]) ∧
    (f_byte.buf = none ∧
      ∃ r, target_flash_write_buffered (fun _ => 0) f_byte () 4294967295 [7] 1 = .ok r ∧
        r.f.buf = some [7] ∧ r.f.buf_addr = NO_SECTOR ∧
        (target_flash_done_buffered r.f r.st).calls.length = 0 ∧
        (target_flash_done_buffered r.f r.st).f.buf = some [7]) :=
  ⟨⟨rfl, _, rfl, by decide, by decide, by decide, by decide⟩,
   ⟨rfl, _, rfl, by decide, by decide, by decide, by decide⟩⟩

/-- C9 (as amended): for every region state, if a buffer is open and a sector
is pending (`buf` present, `buf_addr` not 0xFFFFFFFF), then
`target_flash_done_buffered` makes exactly one `write_buf` call, with
`buf_addr`, the buffer and `buf_size`, returns the status of that call, and
leaves `buf` absent and `buf_addr` = 0xFFFFFFFF; if `buf` is absent or no sector
is pending it makes no call, returns 0 and leaves region and driver state
unchanged. -/
theorem done_buffered_flushes_pending {σ : Type} (f : target_flash σ) (s : σ) :
    (∀ b, f.buf = some b → f.buf_addr ≠ NO_SECTOR →
      ∃ c, (target_flash_done_buffered f s).calls = [c] ∧ c.f = f ∧ c.addr = f.buf_addr ∧
        c.len = f.buf_size ∧ c.data = b ∧
        c.status = (f.write_buf f.buf_addr b s).1 ∧
        (target_flash_done_buffered f s).ret = (f.write_buf f.buf_addr b s).1 ∧
        (target_flash_done_buffered f s).st = (f.write_buf f.buf_addr b s).2 ∧
        (target_flash_done_buffered f s).f.buf = none ∧
        (target_flash_done_buffered f s).f.buf_addr = NO_SECTOR) ∧
    ((f.buf = none ∨ f.buf_addr = NO_SECTOR) →
      (target_flash_done_buffered f s).calls = [] ∧ (target_flash_done_buffered f s).ret = 0 ∧
      (target_flash_done_buffered f s).f = f ∧ (target_flash_done_buffered f s).st = s) :=
  done_buffered_calls f s

/-- C9 (as amended) at concrete inputs: a region with the sector at 8 pending,
and a region with no open buffer. -/
theorem done_buffered_flushes_pending_witness :
    (∃ c, (target_flash_done_buffered f_pending ()).calls = [c] ∧ c.f = f_pending ∧
        c.addr = f_pending.buf_addr ∧ c.len = f_pending.buf_size ∧ c.data = [1, 2, 3, 4] ∧
        c.status = (f_pending.write_buf f_pending.buf_addr [1, 2, 3, 4] ()).1 ∧
        (target_flash_done_buffered f_pending ()).ret
          = (f_pending.write_buf f_pending.buf_addr [1, 2, 3, 4] ()).1 ∧
        (target_flash_done_buffered f_pending ()).st
          = (f_pending.write_buf f_pending.buf_addr [1, 2, 3, 4] ()).2 ∧
        (target_flash_done_buffered f_pending ()).f.buf = none ∧
        (target_flash_done_buffered f_pending ()).f.buf_addr = NO_SECTOR) ∧
    ((target_flash_done_buffered f_buf ()).calls = [] ∧
      (target_flash_done_buffered f_buf ()).ret = 0 ∧
      (target_flash_done_buffered f_buf ()).f = f_buf ∧
      (target_flash_done_buffered f_buf ()).st = ()) :=
  ⟨(done_buffered_flushes_pending f_pending ()).1 [1, 2, 3, 4] rfl (by decide),
   (done_buffered_flushes_pending f_buf ()).2 (Or.inl rfl)⟩

theorem strncmp_eq_starts_with : ∀ (a b : List Char),
    strncmp_eq a b a.length = starts_with a b := by
  intro a
  induction a with
  | nil => intro b; cases b <;> rfl
  | cons x xs ih =>
    intro b
    cases b with
    | nil => rfl
    | cons y ys => simp [strncmp_eq, starts_with, ih]

theorem starts_with_iff : ∀ (a b : List Char),
    starts_with a b = true ↔ ∃ r, b = a ++ r := by
  intro a
  induction a with
  | nil => intro b; simp [starts_with]
  | cons x xs ih =>
    intro b
    cases b with
    | nil => simp [starts_with]
    | cons y ys =>
      simp only [starts_with, Bool.and_eq_true, beq_iff_eq, ih, List.cons_append,
        List.cons.injEq]
      constructor
      · rintro ⟨rfl, r, rfl⟩; exact ⟨r, rfl, rfl⟩
      · rintro ⟨r, rfl, rfl⟩; exact ⟨rfl, r, rfl⟩

theorem target_command_cmds_spec {σ : Type} (tok : List Char) (rest : List (List Char)) (s : σ) :
    ∀ (cs : List (command_s σ)),
      target_command_cmds cs (tok :: rest) s
        = .ok (match cs.find? (fun c => starts_with tok c.cmd) with
            | none => none
            | some c => some { ret := if (c.handler (tok :: rest) s).1 then 0 else 1,
                               st := (c.handler (tok :: rest) s).2, invoked := [c] }) := by
  intro cs
  induction cs with
  | nil => rfl
  | cons c cs ih =>
    simp only [target_command_cmds, strncmp_eq_starts_with, List.find?_cons]
    cases h : starts_with tok c.cmd with
    | true => simp
    | false => simpa using ih

theorem target_command_tables_spec {σ : Type} (tok : List Char) (rest : List (List Char))
    (s : σ) :
    ∀ (tcs : List (target_command_s σ)),
      target_command_tables tcs (tok :: rest) s
        = .ok (first_match_result (tcs.map (fun tc => tc.cmds)).flatten tok (tok :: rest) s) := by
  intro tcs
  induction tcs with
  | nil => rfl
  | cons tc tcs ih =>
    simp only [target_command_tables, target_command_cmds_spec, List.map_cons, List.flatten_cons,
      first_match_result, List.find?_append]
    cases h : tc.cmds.find? (fun c => starts_with tok c.cmd) with
    | none => simpa [first_match_result] using ih
    | some c => simp

theorem command_entries_add {σ : Type} (t : target σ) (cmds : List (command_s σ))
    (name : List Char) :
    command_entries (target_add_commands t cmds name) = command_entries t ++ cmds := by
  simp [command_entries, target_add_commands]

/-- C11: `target_command` with the token `argv[0] = tok` returns what the first
entry whose command text starts with the whole of `tok` gives, scanning the
tables in list order and the entries in their order within a table, and it
invokes the handler of that entry and no other (none when there is no such
entry); a text starts with `tok` exactly when it is `tok` followed by some rest;
`target_add_commands` puts the entries of a new table after all earlier ones;
with a table holding "init" registered before a table holding "initialize", the
token "init" runs the handler of the first table. -/
theorem command_first_match {σ : Type} (t : target σ) (tok : List Char)
    (rest : List (List Char)) (s : σ) :
    target_command t (tok :: rest) s
      = .ok (first_match_result (command_entries t) tok (tok :: rest) s) ∧
    (first_match_result (command_entries t) tok (tok :: rest) s).invoked.length ≤ 1 ∧
    (∀ cmd, starts_with tok cmd = true ↔ ∃ r, cmd = tok ++ r) ∧
    (∀ cmds name,
      command_entries (target_add_commands t cmds name) = command_entries t ++ cmds) ∧
    (∀ h1 h2 n1 n2,
      target_command
          (target_add_commands
            (target_add_commands { t with commands := [] }
              [{ cmd := "init".toList, handler := h1 }] n1)
            [{ cmd := "initialize".toList, handler := h2 }] n2)
          ("init".toList :: rest) s
        = .ok { ret := if (h1 ("init".toList :: rest) s).1 then 0 else 1,
                st := (h1 ("init".toList :: rest) s).2,
                invoked := [{ cmd := "init".toList, handler := h1 }] }) := by
  refine ⟨target_command_tables_spec tok rest s t.commands, ?_, starts_with_iff tok,
    command_entries_add t, ?_⟩
  · unfold first_match_result
    cases (command_entries t).find? (fun c => starts_with tok c.cmd) <;> simp
  · intro h1 h2 n1 n2
    rw [target_command, target_command_tables_spec]
    simp [target_add_commands, first_match_result, starts_with]

/-- C11 at a concrete input: three tables, the token "init". -/
theorem command_first_match_witness :
    (target_command t_cmds ["init".toList] ()).map
        (fun r => (r.ret, r.invoked.map (fun c => c.cmd)))
      = .ok (0, ["init".toList]) ∧
    (target_command t_cmds ["in".toList, "x".toList] ()).map
        (fun r => (r.ret, r.invoked.map (fun c => c.cmd)))
      = .ok (0, ["init".toList]) ∧
    (target_command t_cmds ["initi".toList] ()).map
        (fun r => (r.ret, r.invoked.map (fun c => c.cmd)))
      = .ok (1, ["initialize".toList]) ∧
    (target_command t_cmds ["Init".toList] ()).map
        (fun r => (r.ret, r.invoked.map (fun c => c.cmd)))
      = .ok (-1, []) ∧
    (target_command t_cmds ["resets".toList] ()).map
        (fun r => (r.ret, r.invoked.map (fun c => c.cmd)))
      = .ok (-1, []) := by
  have h := fun tok rest => (command_first_match t_cmds tok rest ()).1
  refine ⟨?_, ?_, ?_, ?_, ?_⟩ <;> rw [h] <;> decide

/-- C12: `target_command` returns; it returns -1 exactly when no entry of any
table has a command text that starts with the token, and then no handler is
invoked and the state is unchanged; otherwise exactly one handler is invoked,
the one of a matching entry, and the value returned is 0 when that handler
returned true and 1 when it returned false. -/
theorem command_return_value {σ : Type} (t : target σ) (tok : List Char)
    (rest : List (List Char)) (s : σ) :
    ∃ r, target_command t (tok :: rest) s = .ok r ∧
      (r.ret = -1 ↔ ∀ c ∈ command_entries t, starts_with tok c.cmd = false) ∧
      (r.ret = -1 → r.invoked = [] ∧ r.st = s) ∧
      (r.ret ≠ -1 → ∃ c, c ∈ command_entries t ∧ starts_with tok c.cmd = true ∧
        r.invoked = [c] ∧ r.st = (c.handler (tok :: rest) s).2 ∧
        ((c.handler (tok :: rest) s).1 = true → r.ret = 0) ∧
        ((c.handler (tok :: rest) s).1 = false → r.ret = 1)) := by
  refine ⟨_, target_command_tables_spec tok rest s t.commands, ?_⟩
  show _ ∧ _ ∧ _
  unfold first_match_result
  have hE : (t.commands.map (fun tc => tc.cmds)).flatten = command_entries t := rfl
  rw [hE]
  cases hf : (command_entries t).find? (fun c => starts_with tok c.cmd) with
  | none =>
    have hn := List.find?_eq_none.mp hf
    refine ⟨?_, ?_, ?_⟩
    · simp only [true_iff]
      intro c hc
      simpa using hn c hc
    · intro _; exact ⟨rfl, rfl⟩
    · intro h; exact absurd rfl h
  | some c =>
    have hm := List.mem_of_find?_eq_some hf
    have hs := List.find?_some hf
    have hne : (if (c.handler (tok :: rest) s).1 = true then (0 : Int) else 1) ≠ -1 := by
      split <;> omega
    refine ⟨?_, ?_, ?_⟩
    · simp only []
      constructor
      · intro h; exact absurd h hne
      · intro h
        have := h c hm
        simp only [] at hs
        rw [hs] at this
        exact absurd this (by simp)
    · intro h; exact absurd h hne
    · intro _
      refine ⟨c, hm, by simpa using hs, rfl, rfl, ?_, ?_⟩
      · intro h; simp [h]
      · intro h; simp [h]

/-- C12 at a concrete input: a token that matches nothing, one whose handler
succeeds, one whose handler reports failure. -/
theorem command_return_value_witness :
    (target_command t_cmds ["halt".toList] ()).map (fun r => r.ret) = .ok (-1) ∧
    (target_command t_cmds ["init".toList] ()).map (fun r => r.ret) = .ok 0 ∧
    (target_command t_cmds ["res".toList] ()).map (fun r => r.ret) = .ok 1 ∧
    ∃ r, target_command t_cmds ["halt".toList] () = .ok r ∧
      (r.ret = -1 ↔ ∀ c ∈ command_entries t_cmds, starts_with "halt".toList c.cmd = false) ∧
      (r.ret = -1 → r.invoked = [] ∧ r.st = ()) ∧
      (r.ret ≠ -1 → ∃ c, c ∈ command_entries t_cmds ∧
        starts_with "halt".toList c.cmd = true ∧
        r.invoked = [c] ∧ r.st = (c.handler ["halt".toList] ()).2 ∧
        ((c.handler ["halt".toList] ()).1 = true → r.ret = 0) ∧
        ((c.handler ["halt".toList] ()).1 = false → r.ret = 1)) :=
  ⟨by decide, by decide, by decide, command_return_value t_cmds "halt".toList [] ()⟩

theorem registry_of_eq_reverse {σ : Type} (xs : List (target σ)) :
    registry_of xs = xs.reverse := by
  unfold registry_of
  have h : ∀ (ys acc : List (target σ)),
      ys.foldl (fun target_list x => target_fill x (target_new target_list)) acc
        = ys.reverse ++ acc := by
    intro ys
    induction ys with
    | nil => intro acc; rfl
    | cons y ys ih =>
      intro acc
      simp only [List.foldl_cons, ih, List.reverse_cons, List.append_assoc]
      rfl
  simpa using h xs []

theorem ordinals_length (i : Int) (n : Nat) : (ordinals i n).length = n := by
  unfold ordinals
  rw [List.length_map, List.length_range]

theorem ordinals_succ (i : Int) (n : Nat) : ordinals i (n + 1) = i :: ordinals (i + 1) n := by
  unfold ordinals
  rw [List.range_succ_eq_map, List.map_cons, List.map_map]
  congr 1
  · simp
  · apply List.map_congr_left
    intro k _
    simp only [Function.comp, Int.ofNat_eq_coe, Nat.cast_succ]
    omega

theorem target_foreach_loop_eq {σ : Type} :
    ∀ (tl : List (target σ)) (i : Int),
      target_foreach_loop tl i = (ordinals i tl.length).zip tl := by
  intro tl
  induction tl with
  | nil => intro i; rfl
  | cons t ts ih =>
    intro i
    simp only [target_foreach_loop, List.length_cons, ordinals_succ, List.zip_cons_cons, ih]

/-- C16 (fails on the code as stated): after a driver named "first" and then a
driver named "second" have each registered a target with `target_new`,
`target_foreach` passes ordinal 1 to the target registered last and ordinal 2
to the one registered first. -/
theorem foreach_visits_newest_first :
    (target_foreach two_targets).1.map (fun p => (p.1, p.2.driver))
      = [(1, "second".toList), (2, "first".toList)] := by
  decide

/-- C16 (as amended): `target_new` links the new target at the head of the
list, so after the registrations `xs` (oldest first) the list is `xs`
reversed; `target_foreach` calls the visitor once for each target, with the
ordinals 1, 2, ..., n in list order, that is, newest registration first, and
returns true exactly when there is a target. -/
theorem foreach_visits_list_order {σ : Type} (xs : List (target σ)) :
    (∀ target_list : List (target σ),
      target_new target_list = ({} : target σ) :: target_list) ∧
    registry_of xs = xs.reverse ∧
    (target_foreach (registry_of xs)).1 = (ordinals 1 xs.length).zip xs.reverse ∧
    ((target_foreach (registry_of xs)).1.map (fun p => p.1)) = ordinals 1 xs.length ∧
    (target_foreach (registry_of xs)).1.length = xs.length ∧
    ((target_foreach (registry_of xs)).2 = true ↔ 0 < xs.length) := by
  have h1 : (target_foreach (registry_of xs)).1 = (ordinals 1 xs.length).zip xs.reverse := by
    rw [registry_of_eq_reverse]
    show target_foreach_loop xs.reverse 1 = _
    rw [target_foreach_loop_eq, List.length_reverse]
  refine ⟨fun _ => rfl, registry_of_eq_reverse xs, h1, ?_, ?_, ?_⟩
  · rw [h1]
    apply List.map_fst_zip
    rw [ordinals_length, List.length_reverse]
  · rw [h1, List.length_zip, ordinals_length, List.length_reverse, Nat.min_self]
  · rw [registry_of_eq_reverse]
    cases xs with
    | nil => simp [target_foreach]
    | cons x xs => simp [target_foreach]

theorem target_attach_spec {σ : Type} (t : target σ)
    (destroy_cb : Option (target_destroy_callback σ)) (s : σ) (a : σ → Bool × σ)
    (ha : t.attach = some a) :
    ∃ r, target_attach t destroy_cb s = .ok r ∧
      r.events
        = (match t.destroy_callback with
            | some d => [attach_event.destroy_called d.tag]
            | none => [])
          ++ [.callback_installed (destroy_cb.map (fun d => d.tag)), .attach_called] ∧
      r.t.destroy_callback = destroy_cb ∧
      r.st = (a (match t.destroy_callback with
                  | some d => d.run s
                  | none => s)).2 ∧
      r.ret = (a (match t.destroy_callback with
                  | some d => d.run s
                  | none => s)).1 ∧
      (r.ret = true → r.t.attached = true) ∧
      (r.ret = false → r.t.attached = t.attached) := by
  unfold target_attach
  simp only [ha]
  cases h : (a (match t.destroy_callback with
                  | some d => d.run s
                  | none => s)).1 with
  | true =>
    refine ⟨_, by simp only [h, Bool.not_true]; rfl, ?_, rfl, rfl, ?_, ?_, ?_⟩
    · simp
    · rfl
    · intro _; rfl
    · intro hf; exact absurd hf (by simp)
  | false =>
    refine ⟨_, by simp only [h, Bool.not_false]; rfl, ?_, rfl, rfl, ?_, ?_, ?_⟩
    · simp
    · rfl
    · intro hf; exact absurd hf (by simp)
    · intro _; rfl

/-- C17: for a target with an attach capability, `target_attach` returns, and
it first invokes the destroy callback installed before, if there is one, then
installs the new callback, then calls the driver's attach capability on the
state the old callback left; it returns the target exactly when that call
succeeded, and then `attached` is true; when the call failed it returns `NULL`
and `attached` is what it was before. -/
theorem attach_order {σ : Type} (t : target σ)
    (destroy_cb : Option (target_destroy_callback σ)) (s : σ) (a : σ → Bool × σ)
    (ha : t.attach = some a) :
    ∃ r, target_attach t destroy_cb s = .ok r ∧
      r.events
        = (match t.destroy_callback with
            | some d => [attach_event.destroy_called d.tag]
            | none => [])
          ++ [.callback_installed (destroy_cb.map (fun d => d.tag)), .attach_called] ∧
      r.t.destroy_callback = destroy_cb ∧
      r.st = (a (match t.destroy_callback with
                  | some d => d.run s
                  | none => s)).2 ∧
      r.ret = (a (match t.destroy_callback with
                  | some d => d.run s
                  | none => s)).1 ∧
      (r.ret = true → r.t.attached = true) ∧
      (r.ret = false → r.t.attached = t.attached) :=
  target_attach_spec t destroy_cb s a ha

/-- C17 at a concrete input: an attached target owned through callback 7 whose
attach capability fails. -/
theorem attach_order_witness :
    ∃ r, target_attach t_second (some cb_nine) () = .ok r ∧
      r.events = [.destroy_called 7, .callback_installed (some 9), .attach_called] ∧
      r.t.destroy_callback = some cb_nine ∧
      r.st = () ∧
      r.ret = false ∧
      (r.ret = true → r.t.attached = true) ∧
      (r.ret = false → r.t.attached = t_second.attached) :=
  attach_order t_second (some cb_nine) () (fun s => (false, s)) rfl

theorem target_attach_n_loop_hit {σ : Type} (n : Int)
    (destroy_cb : Option (target_destroy_callback σ)) (t : target σ) (post : List (target σ))
    (s : σ) :
    ∀ (pre : List (target σ)) (i : Int), n = i + Int.ofNat pre.length →
      target_attach_n_loop n destroy_cb (pre ++ t :: post) i s
        = (target_attach t destroy_cb s).map (fun r =>
            { ret := if r.ret then some r.t else none, target_list := pre ++ r.t :: post,
              st := r.st, events := r.events }) := by
  intro pre
  induction pre with
  | nil =>
    intro i hn
    have hi : i = n := by simp at hn; omega
    simp only [List.nil_append, target_attach_n_loop, hi, if_true]
    cases target_attach t destroy_cb s <;> rfl
  | cons p pre ih =>
    intro i hn
    have hne : ¬ i = n := by simp at hn; omega
    simp only [List.cons_append, target_attach_n_loop, hne, if_false]
    have e : pre.append (t :: post) = pre ++ t :: post := rfl
    rw [e, ih (i + 1) (by simp at hn ⊢; omega)]
    cases target_attach t destroy_cb s <;> rfl

theorem target_attach_n_loop_miss {σ : Type} (n : Int)
    (destroy_cb : Option (target_destroy_callback σ)) (s : σ) :
    ∀ (tl : List (target σ)) (i : Int), (n < i ∨ i + Int.ofNat tl.length ≤ n) →
      target_attach_n_loop n destroy_cb tl i s
        = .ok { ret := none, target_list := tl, st := s, events := [] } := by
  intro tl
  induction tl with
  | nil => intro i _; rfl
  | cons t ts ih =>
    intro i h
    have hne : ¬ i = n := by simp at h; omega
    simp only [target_attach_n_loop, hne, if_false]
    rw [ih (i + 1) (by simp at h ⊢; omega)]

/-- C20: when `n` is the ordinal that `target_foreach` passes with the target
`t` (the targets `pre` come before it in the list, `n = |pre| + 1`),
`target_attach_n(n, cb)` does what `target_attach(t, cb)` does, returns what it
returns, and leaves the other targets of the list as they were; for `n < 1` or
`n` greater than the number of targets it returns `NULL`, invokes nothing and
leaves list and state unchanged. -/
theorem attach_n_selects_ordinal {σ : Type} (n : Int)
    (destroy_cb : Option (target_destroy_callback σ)) (target_list : List (target σ)) (s : σ) :
    (∀ pre t post, target_list = pre ++ t :: post → n = Int.ofNat pre.length + 1 →
      (target_foreach target_list).1[pre.length]? = some (n, t) ∧
      target_attach_n n destroy_cb target_list s
        = (target_attach t destroy_cb s).map (fun r =>
            { ret := if r.ret then some r.t else none, target_list := pre ++ r.t :: post,
              st := r.st, events := r.events })) ∧
    ((n < 1 ∨ Int.ofNat target_list.length < n) →
      target_attach_n n destroy_cb target_list s
        = .ok { ret := none, target_list := target_list, st := s, events := [] }) := by
  constructor
  · intro pre t post hl hn
    subst hl
    constructor
    · show (target_foreach_loop (pre ++ t :: post) 1)[pre.length]? = _
      rw [target_foreach_loop_eq, List.getElem?_zip_eq_some]
      constructor
      · unfold ordinals
        rw [List.getElem?_map, List.getElem?_range (by simp)]
        simp only [Option.map_some', Option.some.injEq]
        omega
      · rw [List.getElem?_append_right (le_refl _)]
        simp
    · exact target_attach_n_loop_hit n destroy_cb t post s pre 1 (by omega)
  · intro h
    exact target_attach_n_loop_miss n destroy_cb s target_list 1 (by omega)

/-- C20 at concrete inputs: ordinal 2 of a list of two targets, and the
ordinals 0 and 3. -/
theorem attach_n_selects_ordinal_witness :
    ((target_foreach two_targets).1[1]? = some (2, t_first) ∧
      target_attach_n 2 (some cb_nine) two_targets ()
        = (target_attach t_first (some cb_nine) ()).map (fun r =>
            { ret := if r.ret then some r.t else none, target_list := [t_second] ++ r.t :: [],
              st := r.st, events := r.events })) ∧
    attach_n_result.view (target_attach_n 2 (some cb_nine) two_targets ())
      = .ok { ret := some { driver := "first".toList, attached := true, callback := some 9 },
              target_list := [{ driver := "second".toList, attached := true, callback := some 7 },
                              { driver := "first".toList, attached := true, callback := some 9 }],
              events := [.callback_installed (some 9), .attach_called] } ∧
    target_attach_n 3 (some cb_nine) two_targets ()
      = .ok { ret := none, target_list := two_targets, st := (), events := [] } ∧
    target_attach_n 0 (some cb_nine) two_targets ()
      = .ok { ret := none, target_list := two_targets, st := (), events := [] } :=
  ⟨(attach_n_selects_ordinal 2 (some cb_nine) two_targets ()).1 [t_second] t_first [] rfl rfl,
   by decide,
   (attach_n_selects_ordinal 3 (some cb_nine) two_targets ()).2 (Or.inr (by decide)),
   (attach_n_selects_ordinal 0 (some cb_nine) two_targets ()).2 (Or.inl (by decide))⟩

theorem snprintf_fits (buf : List Char) (i size : Nat) (text : List Char)
    (hi : buf.length = i) (hs : text.length < size) :
    snprintf buf i size text = (buf ++ text, text.length) := by
  unfold snprintf
  have h0 : ¬ size = 0 := by omega
  rw [if_neg h0, ← hi, List.take_length, List.take_of_length_le (by omega)]

theorem mem_map_ram_loop_fits (len : Nat) :
    ∀ (rs : List target_ram) (tmp : List Char),
      tmp.length + (rs.map ram_text).flatten.length < len →
      mem_map_ram_loop len rs tmp tmp.length
        = .ok (tmp ++ (rs.map ram_text).flatten,
               tmp.length + (rs.map ram_text).flatten.length) := by
  intro rs
  induction rs with
  | nil => intro tmp _; simp [mem_map_ram_loop]
  | cons r rs ih =>
    intro tmp h
    simp only [List.map_cons, List.flatten_cons, List.length_append] at h
    have hlt : ¬ len < tmp.length := by omega
    simp only [mem_map_ram_loop, hlt, if_false, map_ram]
    rw [snprintf_fits tmp tmp.length (len - tmp.length) (ram_text r) rfl (by omega)]
    have e : tmp.length + (ram_text r).length = (tmp ++ ram_text r).length := by simp
    simp only []
    rw [e, ih (tmp ++ ram_text r) (by simp only [List.length_append]; omega)]
    simp [Nat.add_assoc]

theorem map_flash_fits {σ : Type} (tmp : List Char) (len : Nat) (f : target_flash σ)
    (h : (flash_text_head f).length + (flash_text_tail f).length < len) :
    map_flash tmp tmp.length len f
      = .ok (tmp ++ (flash_text_head f ++ flash_text_tail f),
             (flash_text_head f ++ flash_text_tail f).length) := by
  unfold map_flash
  rw [snprintf_fits tmp tmp.length len (flash_text_head f) rfl (by omega)]
  have hlt : ¬ len < (flash_text_head f).length := by omega
  simp only [hlt, if_false]
  rw [snprintf_fits (tmp ++ flash_text_head f) _ _ (flash_text_tail f) (by simp) (by omega)]
  simp

theorem mem_map_flash_loop_fits {σ : Type} (len : Nat) :
    ∀ (fs : List (target_flash σ)) (tmp : List Char),
      tmp.length
          + (fs.map (fun f => flash_text_head f ++ flash_text_tail f)).flatten.length < len →
      mem_map_flash_loop len fs tmp tmp.length
        = .ok (tmp ++ (fs.map (fun f => flash_text_head f ++ flash_text_tail f)).flatten,
               tmp.length
                 + (fs.map (fun f => flash_text_head f ++ flash_text_tail f)).flatten.length) := by
  intro fs
  induction fs with
  | nil => intro tmp _; simp [mem_map_flash_loop]
  | cons f fs ih =>
    intro tmp h
    simp only [List.map_cons, List.flatten_cons, List.length_append] at h
    have hlt : ¬ len < tmp.length := by omega
    simp only [mem_map_flash_loop, hlt, if_false]
    rw [map_flash_fits tmp (len - tmp.length) f (by omega)]
    have e : tmp.length + (flash_text_head f ++ flash_text_tail f).length
        = (tmp ++ (flash_text_head f ++ flash_text_tail f)).length := by simp
    simp only []
    rw [e, ih _ (by simp only [List.length_append]; omega)]
    simp [Nat.add_assoc]

theorem target_mem_map_fits {σ : Type} (t : target σ) (h0 : t.dyn_mem_map = none)
    (hfit : (mem_map_text t).length < 1024) :
    target_mem_map t
      = .ok (mem_map_text t, { t with dyn_mem_map := some (mem_map_text t) }) := by
  unfold mem_map_text at hfit
  simp only [List.length_append] at hfit
  have hopen : ("<memory-map>".toList).length = 12 := by decide
  unfold target_mem_map
  simp only [h0]
  rw [snprintf_fits [] 0 1024 "<memory-map>".toList rfl (by rw [hopen]; omega)]
  simp only [List.nil_append]
  rw [mem_map_ram_loop_fits 1024 t.ram "<memory-map>".toList (by omega)]
  simp only []
  have e1 : ("<memory-map>".toList).length + (t.ram.map ram_text).flatten.length
      = ("<memory-map>".toList ++ (t.ram.map ram_text).flatten).length :=
    (List.length_append _ _).symm
  rw [e1, mem_map_flash_loop_fits 1024 t.flash _ (by simp only [List.length_append]; omega)]
  simp only []
  have e2 : ("<memory-map>".toList ++ (t.ram.map ram_text).flatten).length
        + (t.flash.map (fun f => flash_text_head f ++ flash_text_tail f)).flatten.length
      = ("<memory-map>".toList ++ (t.ram.map ram_text).flatten
          ++ (t.flash.map (fun f => flash_text_head f ++ flash_text_tail f)).flatten).length :=
    (List.length_append _ _).symm
  rw [e2]
  have hlt : ¬ 1024 < ("<memory-map>".toList ++ (t.ram.map ram_text).flatten
      ++ (t.flash.map (fun f => flash_text_head f ++ flash_text_tail f)).flatten).length := by
    simp only [List.length_append]; omega
  simp only [hlt, if_false]
  rw [snprintf_fits _ _ _ "</memory-map>".toList rfl
    (by simp only [List.length_append]; omega)]
  rfl

theorem hex_digit_mem : ∀ d, d < 16 → hex_digit d ∈ "0123456789abcdef".toList := by
  decide

theorem hex_value_digit : ∀ d, d < 16 → hex_value (hex_digit d) = d := by
  decide

theorem hex8_spec (v : Nat) :
    (hex8 v).length = 8 ∧ (∀ c ∈ hex8 v, c ∈ "0123456789abcdef".toList) ∧
    hex_number (hex8 v) = v % 2 ^ 32 := by
  refine ⟨rfl, ?_, ?_⟩
  · intro c hc
    simp only [hex8, List.map_cons, List.map_nil, List.mem_cons, List.mem_singleton,
      List.not_mem_nil, or_false] at hc
    rcases hc with h | h | h | h | h | h | h | h <;> rw [h] <;>
      exact hex_digit_mem _ (Nat.mod_lt _ (by norm_num))
  · simp only [hex8, hex_number, List.map_cons, List.map_nil, List.foldl_cons, List.foldl_nil]
    rw [hex_value_digit _ (Nat.mod_lt _ (by norm_num)),
      hex_value_digit _ (Nat.mod_lt _ (by norm_num)),
      hex_value_digit _ (Nat.mod_lt _ (by norm_num)),
      hex_value_digit _ (Nat.mod_lt _ (by norm_num)),
      hex_value_digit _ (Nat.mod_lt _ (by norm_num)),
      hex_value_digit _ (Nat.mod_lt _ (by norm_num)),
      hex_value_digit _ (Nat.mod_lt _ (by norm_num)),
      hex_value_digit _ (Nat.mod_lt _ (by norm_num))]
    norm_num
    omega

set_option maxRecDepth 100000 in
/-- C13: for a target whose descriptor fits in the working buffer of 1024
bytes (at most 1023 characters) the first `target_mem_map` call returns exactly
the descriptor `mem_map_text`: the opening tag, the element of each RAM region,
the element of each flash region with its block size property, both in list
order, and the closing tag; every number is written as eight lower case
hexadecimal digits that denote the low 32 bits of the field; `target_add_ram`
and `target_add_flash` put a new region at the head of its list. -/
theorem mem_map_format {σ : Type} (t : target σ) (h0 : t.dyn_mem_map = none)
    (hfit : (mem_map_text t).length < 1024) :
    target_mem_map t
      = .ok (mem_map_text t, { t with dyn_mem_map := some (mem_map_text t) }) ∧
    mem_map_text t
      = "<memory-map>".toList
        ++ (t.ram.map (fun r =>
            "<memory type=\"ram\" start=\"0x".toList ++ hex8 r.start
              ++ "\" length=\"0x".toList ++ hex8 r.length ++ "\"/>".toList)).flatten
        ++ (t.flash.map (fun f =>
            "<memory type=\"flash\" start=\"0x".toList ++ hex8 f.start
              ++ "\" length=\"0x".toList ++ hex8 f.length ++ "\">".toList
              ++ ("<property name=\"blocksize\">0x".toList ++ hex8 f.blocksize
                ++ "</property></memory>".toList))).flatten
        ++ "</memory-map>".toList ∧
    (∀ v, (hex8 v).length = 8 ∧ (∀ c ∈ hex8 v, c ∈ "0123456789abcdef".toList) ∧
      hex_number (hex8 v) = v % 2 ^ 32) ∧
    (∀ start len,
      (target_add_ram t start len).ram = { start := start, length := len } :: t.ram) ∧
    (∀ f, (target_add_flash t f).flash = f :: t.flash) :=
  ⟨target_mem_map_fits t h0 hfit, rfl, hex8_spec, fun _ _ => rfl, fun _ => rfl⟩

set_option maxRecDepth 100000 in
/-- C13 at a concrete input: one RAM region and one flash region. -/
theorem mem_map_format_witness :
    ((t_sectors 1).dyn_mem_map = none ∧ (mem_map_text (t_sectors 1)).length < 1024) ∧
    (target_mem_map (t_sectors 1)).map (fun x => String.mk x.1)
      = .ok ("<memory-map><memory type=\"ram\" start=\"0x20000000\" length=\"0x00005000\"/>"
          ++ "<memory type=\"flash\" start=\"0x08000000\" length=\"0x00010000\">"
          ++ "<property name=\"blocksize\">0x00010000</property></memory></memory-map>") ∧
    target_mem_map (t_sectors 1)
      = .ok (mem_map_text (t_sectors 1),
             { t_sectors 1 with dyn_mem_map := some (mem_map_text (t_sectors 1)) }) :=
  ⟨⟨rfl, by decide⟩, by decide,
   (mem_map_format (t_sectors 1) rfl (by decide)).1⟩

set_option maxRecDepth 100000 in
/-- C14 (fails on the code): for a target with one RAM region and nine flash
regions the descriptor has 1137 characters; the head of the ninth flash element
no longer fits, `snprintf` returns its full length, and `map_flash` passes the
next `snprintf` a pointer behind the end of the buffer and the size `len - i`
wrapped around: the call writes outside the working buffer. -/
theorem mem_map_overflows :
    (t_sectors 9).dyn_mem_map = none ∧ (mem_map_text (t_sectors 9)).length = 1137 ∧
    (target_mem_map (t_sectors 9)).map (fun x => x.1) = .error .out_of_bounds := by
  decide

theorem target_mem_map_caches {σ : Type} (t : target σ) (r : List Char × target σ)
    (h : target_mem_map t = .ok r) : r.2.dyn_mem_map = some r.1 := by
  unfold target_mem_map at h
  cases hm : t.dyn_mem_map with
  | some m =>
    simp only [hm, Except.ok.injEq] at h
    rw [← h]; exact hm
  | none =>
    simp only [hm] at h
    split at h
    · simp at h
    · split at h
      · simp at h
      · split at h
        · simp at h
        · simp only [Except.ok.injEq] at h
          rw [← h]

theorem apply_changes_keeps_map {σ : Type} :
    ∀ (cs : List (region_change σ)) (t : target σ),
      (apply_changes t cs).dyn_mem_map = t.dyn_mem_map := by
  intro cs
  induction cs with
  | nil => intro t; rfl
  | cons c cs ih =>
    intro t
    cases c with
    | add_ram start len => simp only [apply_changes, ih]; rfl
    | add_flash f => simp only [apply_changes, ih]; rfl

theorem target_mem_map_cached {σ : Type} (t : target σ) (m : List Char)
    (h : t.dyn_mem_map = some m) : target_mem_map t = .ok (m, t) := by
  unfold target_mem_map
  rw [h]

/-- C15: when a `target_mem_map` call has returned the string `m`, a second
call returns `m` again, both on the target as the first call left it and on
that target after any sequence of `target_add_ram` and `target_add_flash`
calls; the map, once built, is not built again. -/
theorem mem_map_cached {σ : Type} (t : target σ) (r : List Char × target σ)
    (cs : List (region_change σ)) (h : target_mem_map t = .ok r) :
    target_mem_map r.2 = .ok (r.1, r.2) ∧
    target_mem_map (apply_changes r.2 cs) = .ok (r.1, apply_changes r.2 cs) ∧
    (apply_changes r.2 cs).dyn_mem_map = some r.1 := by
  have hc := target_mem_map_caches t r h
  have hk : (apply_changes r.2 cs).dyn_mem_map = some r.1 := by
    rw [apply_changes_keeps_map, hc]
  exact ⟨target_mem_map_cached r.2 r.1 hc, target_mem_map_cached _ r.1 hk, hk⟩

set_option maxRecDepth 100000 in
/-- C15 at a concrete input: a RAM region and a flash region are added after the
first call. -/
theorem mem_map_cached_witness :
    target_mem_map (t_sectors 1)
      = .ok (mem_map_text (t_sectors 1),
             { t_sectors 1 with dyn_mem_map := some (mem_map_text (t_sectors 1)) }) ∧
    target_mem_map { t_sectors 1 with dyn_mem_map := some (mem_map_text (t_sectors 1)) }
      = .ok (mem_map_text (t_sectors 1),
             { t_sectors 1 with dyn_mem_map := some (mem_map_text (t_sectors 1)) }) ∧
    target_mem_map
        (apply_changes { t_sectors 1 with dyn_mem_map := some (mem_map_text (t_sectors 1)) }
          [.add_ram 0x10000000 0x1000, .add_flash (plain_flash 0 0x1000 0)])
      = .ok (mem_map_text (t_sectors 1),
             apply_changes
               { t_sectors 1 with dyn_mem_map := some (mem_map_text (t_sectors 1)) }
               [.add_ram 0x10000000 0x1000, .add_flash (plain_flash 0 0x1000 0)]) ∧
    (apply_changes { t_sectors 1 with dyn_mem_map := some (mem_map_text (t_sectors 1)) }
        [.add_ram 0x10000000 0x1000, .add_flash (plain_flash 0 0x1000 0)]).dyn_mem_map
      = some (mem_map_text (t_sectors 1)) :=
  ⟨target_mem_map_fits (t_sectors 1) rfl (by decide),
   mem_map_cached (t_sectors 1)
     (mem_map_text (t_sectors 1),
      { t_sectors 1 with dyn_mem_map := some (mem_map_text (t_sectors 1)) })
     [.add_ram 0x10000000 0x1000, .add_flash (plain_flash 0 0x1000 0)]
     (target_mem_map_fits (t_sectors 1) rfl (by decide))⟩

/-- C18 (fails on the code): on the adjacent regions `[0, 4)` and `[4, 8)`
without alignment, `target_flash_write` of the bytes 1, 2, 3, 4 at 2 is split in
two chunks of 2 bytes and both are written at address 2 through the first
region: the loop advances `src` and `len` but never `dest`, so the second chunk
goes neither to address 4 nor to the region that owns it. -/
theorem write_dest_not_advanced :
    flash_disjoint t_adjacent ∧ all_mapped t_adjacent 2 4 ∧
    run_keys (target_flash_write t_adjacent () 2 [1, 2, 3, 4] 4)
      = .ok [{ start := 0, length := 4, addr := 2, len := 2, data := [1, 2] },
             { start := 0, length := 4, addr := 2, len := 2, data := [3, 4] }] ∧
    run_keys (target_flash_erase t_adjacent () 2 4)
      = .ok [{ start := 0, length := 4, addr := 2, len := 2, data := [] },
             { start := 4, length := 4, addr := 4, len := 2, data := [] }] := by
  decide

/-- C19: for an erase request `(addr, len)` all of whose bytes are claimed by
flash regions, `target_flash_erase` returns after at most `len` erase calls; the
calls are non-empty chunks, the first at `addr`, each next one at the end of the
one before and made to the region that `flash_for_addr` finds for that address,
and their lengths add up to `len`. -/
theorem erase_chunks_contiguous {σ : Type} (t : target σ) (s : σ) (addr len : Nat)
    (ha : addr < 2 ^ 32) (hm : all_mapped t addr len) :
    ∃ r, target_flash_erase t s addr len = .ok r ∧ r.calls.length ≤ len ∧
      erase_chain t addr r.calls ∧ (r.calls.map (fun c => c.len)).sum = len := by
  obtain ⟨r, new, hr, hc, hch, hsum, hlen⟩ :=
    erase_loop_chain t len s addr len 0 [] (le_refl _) ha hm
  rw [List.nil_append] at hc
  rw [← hc] at hch hsum hlen
  exact ⟨r, hr, hlen, hch, hsum⟩

/-- C19 at a concrete input: the request `[2, 6)` over two adjacent regions. -/
theorem erase_chunks_contiguous_witness :
    (2 < 2 ^ 32 ∧ all_mapped t_adjacent 2 4) ∧
    ∃ r, target_flash_erase t_adjacent () 2 4 = .ok r ∧ r.calls.length ≤ 4 ∧
      erase_chain t_adjacent 2 r.calls ∧ (r.calls.map (fun c => c.len)).sum = 4 :=
  ⟨⟨by decide, by decide⟩, erase_chunks_contiguous t_adjacent () 2 4 (by decide) (by decide)⟩

end BMP
